import Mathlib

/-!
Verification of the volume/extremes computation engine of the Tools_IN
repository (`src/Tools/uvf2volume/uvf2volume.py`, `src/Tools/uvf2volume_soll.py`,
`src/Tools/linear_interpolation.py`).

Shallow embedding conventions:
* a `datetime` instant is embedded in two ways: for the integrator and the
  daily scanner, which only compare and subtract instants, an instant is an
  integer number of seconds (`ℤ`); for the hydrologic-year splitter, which
  constructs calendar dates, an instant is a `DateTime` record ordered
  lexicographically by (year, month, day, hour, minute, second), exactly as
  Python's `datetime` comparison behaves on valid dates;
* float values are embedded as `ℚ` (the scripts only add, multiply and divide);
* Python code that can raise (index errors) is embedded with `Option`.
-/

/-! ## Volume integrator (`calculate_volume` in uvf2volume.py, lines 92-183)

Timestamps are integers (seconds); `(t2 - t1).total_seconds()` becomes the
integer difference cast to `ℚ`. -/

/-- The first loop of `calculate_volume` ("FIND q AT start_time", lines 148-153):
walk the list keeping the most recent sample whose timestamp is `≤ start_time`
in `prev`, and break at the first sample with timestamp `> start_time`. -/
def findAnchor : List (ℤ × ℚ) → ℤ → Option (ℤ × ℚ) → Option (ℤ × ℚ)
  | [], _, prev => prev
  | (t, q) :: rest, s, prev =>
    if s < t then prev else findAnchor rest s (some (t, q))

/-- The second loop of `calculate_volume` ("ACCUMULATE q*dt UNTIL end_time",
lines 164-183): skip samples at or before `prevT`; when a sample's timestamp
reaches or passes `endT`, add the final partial segment and stop; otherwise
accumulate a full segment and advance. -/
def walk : List (ℤ × ℚ) → ℤ → ℤ → ℚ → ℚ → ℚ
  | [], _, _, _, total => total
  | (t, q) :: rest, endT, prevT, prevQ, total =>
    if t ≤ prevT then walk rest endT prevT prevQ total
    else if endT ≤ t then total + prevQ * ((endT - prevT : ℤ) : ℚ)
    else walk rest endT t q (total + prevQ * ((t - prevT : ℤ) : ℚ))

/-- `calculate_volume(data, start_time, end_time)` from uvf2volume.py
(lines 92-183); identical code appears in uvf2volume_soll.py (lines 123-175).
Normalizes direction, clips to the data range, finds the anchor sample, and
integrates the step function. -/
def calculate_volume (data : List (ℤ × ℚ)) (start_time end_time : ℤ) : ℚ :=
  match data with
  | [] => 0
  | f :: rest =>
    if start_time = end_time then 0
    else
      -- `if start_time > end_time: swap`
      let s0 := if end_time < start_time then end_time else start_time
      let e0 := if end_time < start_time then start_time else end_time
      let data_start := f.1
      let data_end := (rest.getLastD f).1
      if e0 ≤ data_start then 0
      else if data_end ≤ s0 then 0
      else
        let s1 := if s0 < data_start then data_start else s0
        let e1 := if data_end < e0 then data_end else e0
        if e1 ≤ s1 then 0
        else
          match findAnchor (f :: rest) s1 none with
          | none => 0
          | some pa =>
            let pt1 := if pa.1 < s1 then s1 else pa.1
            walk (f :: rest) e1 pt1 pa.2 0

/-- Spec-side (§8 of the spec): the step-function sum over all consecutive
sample pairs, `Σ value[i] × (t[i+1] − t[i])`. -/
def stepSum : List (ℤ × ℚ) → ℚ
  | [] => 0
  | [_] => 0
  | (t1, q1) :: (t2, q2) :: rest =>
    q1 * ((t2 - t1 : ℤ) : ℚ) + stepSum ((t2, q2) :: rest)

/-- Spec-side (§4.2 of the spec): the Interval Normalizer's `Empty` outcome.
With `s0 = min start end` and `e0 = max start end`, the interval is Empty when
`start = end`, when it lies entirely outside the data span, or when the
clipped bounds cross. An empty series is Empty as well. -/
def normalizedEmpty (data : List (ℤ × ℚ)) (start_time end_time : ℤ) : Prop :=
  match data with
  | [] => True
  | f :: rest =>
    start_time = end_time ∨
    max start_time end_time ≤ f.1 ∨
    (rest.getLastD f).1 ≤ min start_time end_time ∨
    min (max start_time end_time) (rest.getLastD f).1 ≤
      max (min start_time end_time) f.1

instance (data : List (ℤ × ℚ)) (s e : ℤ) : Decidable (normalizedEmpty data s e) := by
  unfold normalizedEmpty
  match data with
  | [] => exact inferInstance
  | f :: rest => exact inferInstance

/-! ## Calendar instants

Python `datetime` objects compare lexicographically by
(year, month, day, hour, minute, second). We realize that order by an
injection into nested lexicographic products. -/

/-- A calendar instant, mirroring the fields of a Python `datetime` at second
resolution (the scripts never use microseconds). -/
structure DateTime where
  year : ℤ
  month : ℤ
  day : ℤ
  hour : ℤ
  minute : ℤ
  second : ℤ
deriving DecidableEq, Repr

/-- The field tuple of a `DateTime`, in lexicographic order. -/
def DateTime.key (d : DateTime) : Lex (ℤ × Lex (ℤ × Lex (ℤ × Lex (ℤ × Lex (ℤ × ℤ))))) :=
  toLex (d.year, toLex (d.month, toLex (d.day, toLex (d.hour, toLex (d.minute, d.second)))))

instance : LinearOrder DateTime :=
  LinearOrder.lift' DateTime.key (by
    intro x y h
    cases x; cases y
    simp only [DateTime.key, toLex_inj, Prod.mk.injEq] at h
    obtain ⟨h1, h2, h3, h4, h5, h6⟩ := h
    simp [h1, h2, h3, h4, h5, h6])

/-- Python's lexicographic `datetime` ordering, spelled out field by field. -/
theorem DateTime.lt_def (x y : DateTime) :
    x < y ↔ x.year < y.year ∨ (x.year = y.year ∧
      (x.month < y.month ∨ (x.month = y.month ∧
        (x.day < y.day ∨ (x.day = y.day ∧
          (x.hour < y.hour ∨ (x.hour = y.hour ∧
            (x.minute < y.minute ∨ (x.minute = y.minute ∧
              x.second < y.second))))))))) := by
  show DateTime.key x < DateTime.key y ↔ _
  simp only [DateTime.key, Prod.Lex.lt_iff, toLex_inj, Prod.mk.injEq]

/-- Python's lexicographic `datetime` ordering (non-strict), field by field. -/
theorem DateTime.le_def (x y : DateTime) :
    x ≤ y ↔ x.year < y.year ∨ (x.year = y.year ∧
      (x.month < y.month ∨ (x.month = y.month ∧
        (x.day < y.day ∨ (x.day = y.day ∧
          (x.hour < y.hour ∨ (x.hour = y.hour ∧
            (x.minute < y.minute ∨ (x.minute = y.minute ∧
              x.second ≤ y.second))))))))) := by
  show DateTime.key x ≤ DateTime.key y ↔ _
  simp only [DateTime.key, Prod.Lex.le_iff, Prod.Lex.lt_iff, toLex_inj, Prod.mk.injEq]

/-- The field ranges every `datetime` value guarantees (Python validates these
at construction; day-in-month and year bounds are not needed here, only that
days stay below 32 — note October, the month that matters for hydrologic-year
bounds, does have 31 days). -/
def DateTime.Valid (t : DateTime) : Prop :=
  1 ≤ t.month ∧ t.month ≤ 12 ∧ 1 ≤ t.day ∧ t.day ≤ 31 ∧
  0 ≤ t.hour ∧ t.hour ≤ 23 ∧ 0 ≤ t.minute ∧ t.minute ≤ 59 ∧
  0 ≤ t.second ∧ t.second ≤ 59

instance (t : DateTime) : Decidable t.Valid := by unfold DateTime.Valid; exact inferInstance

/-! Seconds-since-epoch conversion, used to feed `calculate_volume` from the
splitter. `daysFromCivil` is the standard civil-calendar day count
(proleptic Gregorian), so differences of `toSec` equal Python's
`(t2 - t1).total_seconds()` on valid datetimes. -/

/-- Days from civil epoch 1970-01-01 for a (year, month, day) date,
standard Gregorian day-count algorithm (integer division is floor division
here, as `/` on `ℤ` rounds toward negative infinity for positive divisors). -/
def daysFromCivil (y m d : ℤ) : ℤ :=
  let y2 := if m ≤ 2 then y - 1 else y
  let era := (if 0 ≤ y2 then y2 else y2 - 399) / 400
  let yoe := y2 - era * 400
  let mp := (m + 9) % 12
  let doy := (153 * mp + 2) / 5 + d - 1
  let doe := yoe * 365 + yoe / 4 - yoe / 100 + doy
  era * 146097 + doe - 719468

/-- Seconds since the epoch for a `DateTime`. -/
def DateTime.toSec (t : DateTime) : ℤ :=
  daysFromCivil t.year t.month t.day * 86400 + t.hour * 3600 + t.minute * 60 + t.second

/-! ## Hydrologic-year splitter
(`compute_hydrologic_year_volumes` in uvf2volume.py, lines 190-224). -/

/-- `_hydro_year(dt)` (uvf2volume.py, lines 186-187): the hydrologic year a
date belongs to, `dt.year` through October and `dt.year + 1` from November. -/
def hydro_year (dt : DateTime) : ℤ :=
  if dt.month ≤ 10 then dt.year else dt.year + 1

/-- `datetime(year - 1, 11, 1)`: the first instant of hydrologic year `n`. -/
def hydroStart (n : ℤ) : DateTime := ⟨n - 1, 11, 1, 0, 0, 0⟩

/-- `datetime(year, 10, 31, 23, 59, 59)`: the last instant of hydrologic
year `n`. -/
def hydroEnd (n : ℤ) : DateTime := ⟨n, 10, 31, 23, 59, 59⟩

/-- One entry of the result list of `compute_hydrologic_year_volumes`
(the dict built at uvf2volume.py lines 217-222). -/
structure YearVolumeResult where
  year : ℤ
  interval_start : DateTime
  interval_end : DateTime
  volume_m3 : ℚ
deriving DecidableEq, Repr

/-- `compute_hydrologic_year_volumes(data, start_time, end_time)`
(uvf2volume.py, lines 190-224): swap so start ≤ end, then for each hydrologic
year from `_hydro_year(start)` to `_hydro_year(end)` intersect its calendar
bounds with the interval and emit a result when the intersection has
`interval_start < interval_end`; the volume is `calculate_volume` over the
series, timestamps taken as seconds. -/
def compute_hydrologic_year_volumes (data : List (DateTime × ℚ))
    (start_time end_time : DateTime) : List YearVolumeResult :=
  let p := if end_time < start_time then (end_time, start_time) else (start_time, end_time)
  let first_hy := hydro_year p.1
  let last_hy := hydro_year p.2
  ((List.range (last_hy + 1 - first_hy).toNat).map
      (fun k : ℕ => first_hy + (k : ℤ))).filterMap
    (fun year =>
      let hydro_start := hydroStart year
      let hydro_end := hydroEnd year
      let interval_start := max p.1 hydro_start
      let interval_end := min p.2 hydro_end
      if interval_end ≤ interval_start then none
      else some { year := year, interval_start := interval_start,
                  interval_end := interval_end,
                  volume_m3 := calculate_volume
                    (data.map (fun x => (x.1.toSec, x.2)))
                    interval_start.toSec interval_end.toSec })

/-! ## Daily extremes scanner
(`get_daily_extremes` in uvf2volume.py, lines 292-360). -/

/-- `t.date()`: the calendar-day triple of an instant. -/
def dayOf (t : DateTime) : ℤ × ℤ × ℤ := (t.year, t.month, t.day)

/-- The loop of `get_daily_extremes` (uvf2volume.py, lines 316-358): skip
samples before `s`, break at the first sample after `e`, accumulate a running
(day, min, max) in `cur`, flush it when the day changes and once at the end. -/
def dedLoop : List (DateTime × ℚ) → DateTime → DateTime →
    Option ((ℤ × ℤ × ℤ) × ℚ × ℚ) → List ((ℤ × ℤ × ℤ) × ℚ × ℚ) →
    List ((ℤ × ℤ × ℤ) × ℚ × ℚ)
  | [], _, _, cur, res =>
    (match cur with | none => res | some c => res ++ [c])
  | (t, q) :: rest, s, e, cur, res =>
    if t < s then dedLoop rest s e cur res
    else if e < t then (match cur with | none => res | some c => res ++ [c])
    else
      match cur with
      | none => dedLoop rest s e (some (dayOf t, q, q)) res
      | some (d, mn, mx) =>
        if dayOf t = d then
          dedLoop rest s e
            (some (d, (if q < mn then q else mn), (if mx < q then q else mx))) res
        else dedLoop rest s e (some (dayOf t, q, q)) (res ++ [(d, mn, mx)])

/-- `get_daily_extremes(data, start_time, end_time)` (uvf2volume.py,
lines 292-360): swap so start ≤ end, then run the scan with no current day
and an empty result list. Each output entry is (date, min, max). -/
def get_daily_extremes (data : List (DateTime × ℚ)) (start_time end_time : DateTime) :
    List ((ℤ × ℤ × ℤ) × ℚ × ℚ) :=
  let p := if end_time < start_time then (end_time, start_time) else (start_time, end_time)
  dedLoop data p.1 p.2 none []

/-! ## Lookup-table interpolation
(`interp` in uvf2volume_soll.py, lines 44-55). -/

/-- Python's `bisect.bisect_left(xs, x)` by its documented contract for a
sorted list: the leftmost insertion point, i.e. the index of the first
element not less than `x`. -/
def bisect_left (xs : List ℚ) (x : ℚ) : ℕ :=
  (xs.takeWhile (fun v => decide (v < x))).length

/-- `interp(x, xs, ys)` (uvf2volume_soll.py, lines 44-55): clamp outside the
table range, otherwise take the bracketing pair around the leftmost insertion
point and interpolate linearly. Out-of-bounds indexing (empty or mismatched
tables) yields `none`, as the Python code would raise `IndexError`. -/
def interp (x : ℚ) (xs ys : List ℚ) : Option ℚ :=
  match xs.head? with
  | none => none
  | some x_first =>
    if x ≤ x_first then ys.head?
    else
      match xs.getLast? with
      | none => none
      | some x_last =>
        if x_last ≤ x then ys.getLast?
        else
          let i := bisect_left xs x
          match xs.get? (i - 1), ys.get? (i - 1), xs.get? i, ys.get? i with
          | some x0, some y0, some x1, some y1 =>
            some (y0 + (x - x0) / (x1 - x0) * (y1 - y0))
          | _, _, _, _ => none

/-! ## Basic list helpers -/

theorem getLastD_congr {α : Type} (l : List α) (h : l ≠ []) (d d' : α) :
    l.getLastD d = l.getLastD d' := by
  cases l with
  | nil => exact absurd rfl h
  | cons a t => rw [List.getLastD_cons, List.getLastD_cons]

theorem getLastD_append {α : Type} (l₁ l₂ : List α) (d : α) :
    (l₁ ++ l₂).getLastD d = l₂.getLastD (l₁.getLastD d) := by
  induction l₁ generalizing d with
  | nil => simp
  | cons a t ih => rw [List.cons_append, List.getLastD_cons, ih, List.getLastD_cons]

/-- The sample-at-or-before predicate used to describe the anchor search. -/
def leT (s : ℤ) : (ℤ × ℚ) → Bool := fun x => decide (x.1 ≤ s)

/-! ## Anchor-search lemmas -/

/-- `findAnchor` returns the last sample of the leading run of samples with
timestamp `≤ s`, or the carried accumulator when that run is empty. -/
theorem findAnchor_eq (s : ℤ) (l : List (ℤ × ℚ)) : ∀ p : Option (ℤ × ℚ),
    findAnchor l s p = if (l.takeWhile (leT s)) = [] then p
      else some ((l.takeWhile (leT s)).getLastD (0, 0)) := by
  induction l with
  | nil => intro p; simp [findAnchor]
  | cons a rest ih =>
    intro p
    obtain ⟨t, q⟩ := a
    by_cases h : t ≤ s
    · have hna : ¬ s < t := not_lt.mpr h
      have hbd : leT s (t, q) = true := by simp [leT, h]
      rw [show findAnchor ((t, q) :: rest) s p = findAnchor rest s (some (t, q)) by
            simp [findAnchor, hna],
          ih (some (t, q)), List.takeWhile_cons, hbd]
      simp only [if_true]
      by_cases htw : rest.takeWhile (leT s) = []
      · simp [htw]
      · have hne : (t, q) :: rest.takeWhile (leT s) ≠ [] := by simp
        rw [if_neg htw, if_neg hne, List.getLastD_cons, getLastD_congr _ htw (0, 0) (t, q)]
    · have hlt : s < t := not_le.mp h
      have hbd : leT s (t, q) = false := by simp [leT, h]
      rw [show findAnchor ((t, q) :: rest) s p = p by simp [findAnchor, hlt],
          List.takeWhile_cons, hbd]
      simp

/-- Any sample the anchor search returns has timestamp at most `s`, provided
the accumulator it starts from does. -/
theorem findAnchor_le (s : ℤ) (l : List (ℤ × ℚ)) : ∀ (p : Option (ℤ × ℚ)) (a : ℤ × ℚ),
    findAnchor l s p = some a → (∀ b, p = some b → b.1 ≤ s) → a.1 ≤ s := by
  induction l with
  | nil => intro p a h hp; exact hp a h
  | cons x rest ih =>
    intro p a h hp
    obtain ⟨t, q⟩ := x
    by_cases hts : s < t
    · rw [show findAnchor ((t, q) :: rest) s p = p by simp [findAnchor, hts]] at h
      exact hp a h
    · rw [show findAnchor ((t, q) :: rest) s p = findAnchor rest s (some (t, q)) by
            simp [findAnchor, hts]] at h
      exact ih (some (t, q)) a h (by rintro b rfl1; cases rfl1; exact not_lt.mp hts)

/-- Any sample the anchor search returns comes from the list (or from the
accumulator). -/
theorem findAnchor_mem (s : ℤ) (l : List (ℤ × ℚ)) : ∀ (p : Option (ℤ × ℚ)) (a : ℤ × ℚ),
    findAnchor l s p = some a → a ∈ l ∨ p = some a := by
  induction l with
  | nil => intro p a h; exact Or.inr h
  | cons x rest ih =>
    intro p a h
    obtain ⟨t, q⟩ := x
    by_cases hts : s < t
    · rw [show findAnchor ((t, q) :: rest) s p = p by simp [findAnchor, hts]] at h
      exact Or.inr h
    · rw [show findAnchor ((t, q) :: rest) s p = findAnchor rest s (some (t, q)) by
            simp [findAnchor, hts]] at h
      rcases ih (some (t, q)) a h with hm | he
      · exact Or.inl (List.mem_cons_of_mem _ hm)
      · cases he; exact Or.inl (List.mem_cons_self _ _)

/-! ## Walk lemmas -/

/-- Samples at or before the current effective timestamp are skipped, so a
leading run of them can be dropped. -/
theorem walk_skip (e pT : ℤ) (pQ acc : ℚ) : ∀ (pre post : List (ℤ × ℚ)),
    (∀ x ∈ pre, x.1 ≤ pT) → walk (pre ++ post) e pT pQ acc = walk post e pT pQ acc := by
  intro pre
  induction pre with
  | nil => intro post _; rfl
  | cons x rest ih =>
    intro post hall
    obtain ⟨t, q⟩ := x
    have ht : t ≤ pT := hall (t, q) (List.mem_cons_self _ _)
    rw [List.cons_append, show walk ((t, q) :: (rest ++ post)) e pT pQ acc
          = walk (rest ++ post) e pT pQ acc by simp [walk, ht]]
    exact ih post (fun x hx => hall x (List.mem_cons_of_mem _ hx))

/-- The accumulated volume never goes negative when all sample values are
non-negative and the effective timestamp has not passed `e`. -/
theorem walk_nonneg (e : ℤ) : ∀ (l : List (ℤ × ℚ)) (pT : ℤ) (pQ acc : ℚ),
    0 ≤ acc → 0 ≤ pQ → pT ≤ e → (∀ x ∈ l, 0 ≤ x.2) → 0 ≤ walk l e pT pQ acc := by
  intro l
  induction l with
  | nil => intro pT pQ acc hacc _ _ _; exact hacc
  | cons x rest ih =>
    intro pT pQ acc hacc hq hpe hall
    obtain ⟨t, q⟩ := x
    by_cases h1 : t ≤ pT
    · rw [show walk ((t, q) :: rest) e pT pQ acc = walk rest e pT pQ acc by simp [walk, h1]]
      exact ih pT pQ acc hacc hq hpe (fun x hx => hall x (List.mem_cons_of_mem _ hx))
    · by_cases h2 : e ≤ t
      · rw [show walk ((t, q) :: rest) e pT pQ acc = acc + pQ * ((e - pT : ℤ) : ℚ) by
              simp [walk, h1, h2]]
        have : (0 : ℚ) ≤ ((e - pT : ℤ) : ℚ) := by exact_mod_cast sub_nonneg.mpr hpe
        exact add_nonneg hacc (mul_nonneg hq this)
      · rw [show walk ((t, q) :: rest) e pT pQ acc
              = walk rest e t q (acc + pQ * ((t - pT : ℤ) : ℚ)) by simp [walk, h1, h2]]
        have hpt : pT ≤ t := le_of_lt (not_le.mp h1)
        have hc : (0 : ℚ) ≤ ((t - pT : ℤ) : ℚ) := by exact_mod_cast sub_nonneg.mpr hpt
        exact ih t q _ (add_nonneg hacc (mul_nonneg hq hc))
          (hall (t, q) (List.mem_cons_self _ _)) (le_of_not_le h2)
          (fun x hx => hall x (List.mem_cons_of_mem _ hx))

/-! ## Zero and non-negativity facts about `calculate_volume` -/

/-- All the early-return branches: a degenerate, disjoint, or clipped-away
interval yields volume `0`. -/
theorem calculate_volume_zero_cases (f : ℤ × ℚ) (rest : List (ℤ × ℚ)) (s e : ℤ)
    (h : s = e ∨ max s e ≤ f.1 ∨ (rest.getLastD f).1 ≤ min s e ∨
      min (max s e) (rest.getLastD f).1 ≤ max (min s e) f.1) :
    calculate_volume (f :: rest) s e = 0 := by
  by_cases hse : s = e
  · simp [calculate_volume, hse]
  simp only [calculate_volume]
  rw [if_neg hse]
  split_ifs with h1 h2 h3 h4 h5 h6 h7 h8 h9 h10 <;>
    first
      | rfl
      | (exfalso; rcases h with h | h | h | h; exacts [hse h, by omega, by omega, by omega])

/-- The integration tail of `calculate_volume` (anchor search plus walk) is
non-negative for non-negative sample values. -/
theorem volume_tail_nonneg (l : List (ℤ × ℚ)) (s1 e1 : ℤ) (h : s1 ≤ e1)
    (hval : ∀ x ∈ l, 0 ≤ x.2) :
    0 ≤ (match findAnchor l s1 none with
         | none => (0 : ℚ)
         | some pa => walk l e1 (if pa.1 < s1 then s1 else pa.1) pa.2 0) := by
  rcases hfa : findAnchor l s1 none with _ | pa
  · exact le_refl 0
  · have hmem : pa ∈ l := by
      rcases findAnchor_mem _ _ _ _ hfa with hm | hp
    
      · exact hm
      · exact absurd hp (by simp)
    have hle : pa.1 ≤ s1 := by
      refine findAnchor_le _ _ _ _ hfa ?_
      rintro b hb
      exact absurd hb (by simp)
    refine walk_nonneg _ _ _ _ _ (le_refl 0) (hval pa hmem) ?_ hval
    split_ifs <;> omega

/-- The volume is non-negative whenever every sample value is. -/
theorem calculate_volume_nonneg (data : List (ℤ × ℚ)) (s e : ℤ)
    (hval : ∀ x ∈ data, 0 ≤ x.2) : 0 ≤ calculate_volume data s e := by
  match data with
  | [] => exact le_refl 0
  | f :: rest =>
    by_cases hse : s = e
    · simp [calculate_volume, hse]
    simp only [calculate_volume]
    rw [if_neg hse]
    split_ifs with h1 h2 h3 h4 h5 h6 <;> try exact le_refl 0
    all_goals exact volume_tail_nonneg _ _ _ (by omega) hval

/-! ## Claims C8, C9, C10 -/

/-- C8: for every series whose sample values are all non-negative and every
pair of instants, `calculate_volume` returns a value `≥ 0`, and it returns
exactly `0` when the normalized interval is Empty in the sense of §4.2. -/
theorem claim_C8_volume_nonneg (data : List (ℤ × ℚ)) (s e : ℤ) :
    ((∀ x ∈ data, 0 ≤ x.2) → 0 ≤ calculate_volume data s e) ∧
    (normalizedEmpty data s e → calculate_volume data s e = 0) := by
  constructor
  · intro h
    exact calculate_volume_nonneg data s e h
  · intro h
    match data with
    | [] => rfl
    | f :: rest =>
      exact calculate_volume_zero_cases f rest s e (by simpa [normalizedEmpty] using h)

/-- Witness for C8 at a concrete series and interval. -/
theorem claim_C8_volume_nonneg_witness :
    (0 ≤ calculate_volume [((0 : ℤ), (2 : ℚ)), (10, 1)] 0 10) ∧
    calculate_volume [((0 : ℤ), (2 : ℚ)), (10, 1)] 3 3 = 0 :=
  ⟨(claim_C8_volume_nonneg [((0 : ℤ), (2 : ℚ)), (10, 1)] 0 10).1
      (by intro x hx; simp only [List.mem_cons, List.not_mem_nil, or_false] at hx
          rcases hx with rfl | rfl <;> norm_num),
   (claim_C8_volume_nonneg [((0 : ℤ), (2 : ℚ)), (10, 1)] 3 3).2
      (by left; rfl)⟩

/-- C9: for a non-empty series, degenerate or fully-out-of-range intervals
are not errors: a zero-width interval yields `0` for any instant, and an
interval entirely at or before the first timestamp, or at or after the last
timestamp (after direction normalization), yields `0`. -/
theorem claim_C9_degenerate_out_of_range (data : List (ℤ × ℚ)) (h : data ≠ []) :
    (∀ t : ℤ, calculate_volume data t t = 0) ∧
    (∀ s e : ℤ, s ≠ e →
      (max s e ≤ (data.headD (0, 0)).1 ∨ (data.getLastD (0, 0)).1 ≤ min s e) →
      calculate_volume data s e = 0) := by
  match data with
  | f :: rest =>
    constructor
    · intro t
      simp [calculate_volume]
    · intro s e hne hd
      refine calculate_volume_zero_cases f rest s e ?_
      rcases hd with hd | hd
      · rw [List.headD_cons] at hd
        exact Or.inr (Or.inl hd)
      · rw [List.getLastD_cons] at hd
        exact Or.inr (Or.inr (Or.inl hd))

/-- Witness for C9 at a concrete series, a zero-width interval and an
out-of-range interval. -/
theorem claim_C9_degenerate_out_of_range_witness :
    calculate_volume [((5 : ℤ), (2 : ℚ)), (10, 1)] 7 7 = 0 ∧
    calculate_volume [((5 : ℤ), (2 : ℚ)), (10, 1)] 0 3 = 0 :=
  ⟨(claim_C9_degenerate_out_of_range [((5 : ℤ), (2 : ℚ)), (10, 1)] (by simp)).1 7,
   (claim_C9_degenerate_out_of_range [((5 : ℤ), (2 : ℚ)), (10, 1)] (by simp)).2 0 3
      (by decide) (by left; decide)⟩

/-- C10: with an empty series both computations are total and silent:
`calculate_volume` returns `0` and `get_daily_extremes` returns the empty
list, for every interval. -/
theorem claim_C10_empty_series_total :
    (∀ s e : ℤ, calculate_volume [] s e = 0) ∧
    (∀ s e : DateTime, get_daily_extremes [] s e = []) :=
  ⟨fun _ _ => rfl, fun _ _ => rfl⟩

/-! ## Exact integral bookkeeping for C2/C5

`clipSum l e` is the step-function sum over consecutive pairs of `l` with all
segment ends clipped at `e`; the walk of `calculate_volume` computes exactly
this over the anchor-extended suffix of the series. -/

/-- Step-function sum over consecutive pairs with segment bounds clipped
at `e`: `Σ qᵢ × (min tᵢ₊₁ e − min tᵢ e)`. -/
def clipSum : List (ℤ × ℚ) → ℤ → ℚ
  | [], _ => 0
  | [_], _ => 0
  | (t1, q1) :: (t2, q2) :: rest, e =>
    q1 * ((min t2 e - min t1 e : ℤ) : ℚ) + clipSum ((t2, q2) :: rest) e

/-- Timestamps strictly increase along the list. -/
def StrictTimes (l : List (ℤ × ℚ)) : Prop :=
  List.Chain' (fun x y : ℤ × ℚ => x.1 < y.1) l

/-- Timestamps are non-decreasing along the list (ties allowed). -/
def SortedTimes (l : List (ℤ × ℚ)) : Prop :=
  List.Chain' (fun x y : ℤ × ℚ => x.1 ≤ y.1) l

instance : DecidableRel (fun x y : ℤ × ℚ => x.1 < y.1) :=
  fun x y => inferInstanceAs (Decidable (x.1 < y.1))

instance : DecidableRel (fun x y : ℤ × ℚ => x.1 ≤ y.1) :=
  fun x y => inferInstanceAs (Decidable (x.1 ≤ y.1))

instance (l : List (ℤ × ℚ)) : Decidable (StrictTimes l) :=
  inferInstanceAs (Decidable (List.Chain' _ l))

instance (l : List (ℤ × ℚ)) : Decidable (SortedTimes l) :=
  inferInstanceAs (Decidable (List.Chain' _ l))

theorem clipSum_zero_of_head_ge (e : ℤ) :
    ∀ (l : List (ℤ × ℚ)), SortedTimes l → (∀ h : l ≠ [], e ≤ (l.headD (0, 0)).1) →
      clipSum l e = 0 := by
  intro l
  induction l with
  | nil => intro _ _; rfl
  | cons a rest ih =>
    intro hs hh
    match rest, hs with
    | [], _ => rfl
    | b :: rest', hs =>
      obtain ⟨t1, q1⟩ := a
      obtain ⟨t2, q2⟩ := b
      have h1 : e ≤ t1 := hh (by simp)
      have h12 : t1 ≤ t2 := (List.chain'_cons.mp hs).1
      have hmin : min t2 e - min t1 e = 0 := by omega
      rw [show clipSum ((t1, q1) :: (t2, q2) :: rest') e
            = q1 * ((min t2 e - min t1 e : ℤ) : ℚ) + clipSum ((t2, q2) :: rest') e from rfl,
          hmin]
      have := ih (List.chain'_cons.mp hs).2 (fun _ => by simpa using le_trans h1 h12)
      simp [this]

/-- On a strictly sorted suffix whose head lies beyond the current effective
timestamp, the walk computes exactly the clipped step sum of the suffix
extended with the (timestamp, value) state, provided the suffix reaches `e`. -/
theorem walk_eq_clipSum (e : ℤ) :
    ∀ (ys : List (ℤ × ℚ)) (pT : ℤ) (pQ acc : ℚ),
      StrictTimes ((pT, pQ) :: ys) → pT < e → ys ≠ [] →
      e ≤ (ys.getLastD (0, 0)).1 →
      walk ys e pT pQ acc = acc + clipSum ((pT, pQ) :: ys) e := by
  intro ys
  induction ys with
  | nil => intro pT pQ acc _ _ hne _; exact absurd rfl hne
  | cons b rest ih =>
    intro pT pQ acc hchain hpe _ hlast
    obtain ⟨t1, q1⟩ := b
    have ht1 : pT < t1 := (List.chain'_cons.mp hchain).1
    have hskip : ¬ t1 ≤ pT := not_le.mpr ht1
    match rest with
    | [] =>
      have he1 : e ≤ t1 := by simpa using hlast
      rw [show walk [(t1, q1)] e pT pQ acc = acc + pQ * ((e - pT : ℤ) : ℚ) by
            simp [walk, hskip, he1]]
      have hmin : min t1 e - min pT e = e - pT := by omega
      rw [show clipSum ((pT, pQ) :: [(t1, q1)]) e
            = pQ * ((min t1 e - min pT e : ℤ) : ℚ) + clipSum [(t1, q1)] e from rfl, hmin]
      rw [show clipSum [(t1, q1)] e = 0 from rfl]
      ring
    | c :: rest' =>
      have htail : StrictTimes ((t1, q1) :: c :: rest') := (List.chain'_cons.mp hchain).2
      have hlast' : e ≤ ((c :: rest').getLastD (0, 0)).1 := by
        rw [List.getLastD_cons] at hlast
        rw [show ((c :: rest').getLastD (0, 0)) = ((c :: rest').getLastD (t1, q1)) from
              getLastD_congr _ (by simp) _ _]
        exact hlast
      by_cases he1 : e ≤ t1
      · -- final segment: the very next sample already reaches e
        rw [show walk ((t1, q1) :: c :: rest') e pT pQ acc
              = acc + pQ * ((e - pT : ℤ) : ℚ) by simp [walk, hskip, he1]]
        have hmin : min t1 e - min pT e = e - pT := by omega
        rw [show clipSum ((pT, pQ) :: (t1, q1) :: c :: rest') e
              = pQ * ((min t1 e - min pT e : ℤ) : ℚ) + clipSum ((t1, q1) :: c :: rest') e
              from rfl, hmin]
        rw [clipSum_zero_of_head_ge e ((t1, q1) :: c :: rest')
              (by
                refine List.Chain'.imp ?_ htail
                intro x y hxy
                exact le_of_lt hxy)
              (fun _ => by simpa using he1)]
        ring
      · -- interior segment: accumulate and advance
        have he1' : t1 < e := not_le.mp he1
        rw [show walk ((t1, q1) :: c :: rest') e pT pQ acc
              = walk (c :: rest') e t1 q1 (acc + pQ * ((t1 - pT : ℤ) : ℚ)) by
              simp [walk, hskip, he1]]
        rw [ih t1 q1 _ htail he1' (by simp) hlast']
        have hmin : min t1 e - min pT e = t1 - pT := by omega
        rw [show clipSum ((pT, pQ) :: (t1, q1) :: c :: rest') e
              = pQ * ((min t1 e - min pT e : ℤ) : ℚ) + clipSum ((t1, q1) :: c :: rest') e
              from rfl, hmin]
        ring

instance : IsTrans (ℤ × ℚ) (fun x y : ℤ × ℚ => x.1 < y.1) :=
  ⟨fun _ _ _ h1 h2 => lt_trans h1 h2⟩

instance : IsTrans (ℤ × ℚ) (fun x y : ℤ × ℚ => x.1 ≤ y.1) :=
  ⟨fun _ _ _ h1 h2 => le_trans h1 h2⟩

theorem getLastD_mem {α : Type} : ∀ (l : List α) (d : α), l ≠ [] → l.getLastD d ∈ l
  | [], _, h => absurd rfl h
  | [a], d, _ => by simp
  | a :: b :: t, d, _ => by
    rw [List.getLastD_cons]
    exact List.mem_cons_of_mem _ (getLastD_mem (b :: t) a (by simp))

theorem dropWhile_head_false {α : Type} (p : α → Bool) (l : List α) (d : α)
    (h : l.dropWhile p ≠ []) : p ((l.dropWhile p).headD d) = false := by
  induction l with
  | nil => exact absurd rfl h
  | cons a t ih =>
    by_cases hp : p a
    · rw [List.dropWhile_cons_of_pos hp] at h ⊢
      exact ih h
    · rw [List.dropWhile_cons_of_neg hp]
      simpa using hp

/-- `calculate_volume` on a strictly sorted series, for an interval already
inside the data span, equals the clipped step sum over the anchor-extended
suffix of samples after `s`. -/
theorem calculate_volume_eq_clipSum (f : ℤ × ℚ) (rest : List (ℤ × ℚ))
    (hsort : StrictTimes (f :: rest)) (s e : ℤ)
    (h1 : f.1 ≤ s) (h2 : s < e) (h3 : e ≤ (rest.getLastD f).1) :
    calculate_volume (f :: rest) s e
      = clipSum ((s, (((f :: rest).takeWhile (leT s)).getLastD (0, 0)).2)
          :: (f :: rest).dropWhile (leT s)) e := by
  have hde : (rest.getLastD f).1 = (((f :: rest)).getLastD (0, 0)).1 := by
    rw [List.getLastD_cons]
  -- the leading run of samples with timestamp ≤ s is non-empty
  have hfT : leT s f = true := by simp [leT, h1]
  have hTcons : (f :: rest).takeWhile (leT s) = f :: rest.takeWhile (leT s) := by
    rw [List.takeWhile_cons, if_pos hfT]
  have hTne : (f :: rest).takeWhile (leT s) ≠ [] := by rw [hTcons]; simp
  -- the trailing run is non-empty: the last sample is at or past e > s
  have hDne : (f :: rest).dropWhile (leT s) ≠ [] := by
    intro hD
    have hsplit := List.takeWhile_append_dropWhile (p := leT s) (l := f :: rest)
    rw [hD, List.append_nil] at hsplit
    have hlmem : (f :: rest).getLastD (0, 0) ∈ (f :: rest) := getLastD_mem _ _ (by simp)
    rw [← hsplit] at hlmem
    have hprop := List.mem_takeWhile_imp hlmem
    simp only [leT, decide_eq_true_eq] at hprop
    rw [hsplit] at hprop
    rw [← hde] at hprop
    omega
  -- unfold the driver
  simp only [calculate_volume]
  rw [if_neg (show ¬ s = e from ne_of_lt h2)]
  split_ifs with hswap hc1 hc2 hc3 hc4 hc5 <;>
    first
      | (exfalso; omega)
      | skip
  rw [findAnchor_eq s (f :: rest) none, if_neg hTne]
  set pa := ((f :: rest).takeWhile (leT s)).getLastD (0, 0) with hpadef
  have hpa1 : pa.1 ≤ s := by
    have hmem : pa ∈ (f :: rest).takeWhile (leT s) := getLastD_mem _ _ hTne
    have := List.mem_takeWhile_imp hmem
    simpa [leT] using this
  have hpt1 : (if pa.1 < s then s else pa.1) = s := by
    split_ifs <;> omega
  show walk (f :: rest) e _ _ 0 = _
  rw [hpt1]
  -- drop the leading run, which the walk skips
  have hTall : ∀ x ∈ (f :: rest).takeWhile (leT s), x.1 ≤ s := by
    intro x hx
    have := List.mem_takeWhile_imp hx
    simpa [leT] using this
  have hwalkdrop : walk (f :: rest) e s pa.2 0
      = walk ((f :: rest).dropWhile (leT s)) e s pa.2 0 := by
    conv_lhs => rw [← List.takeWhile_append_dropWhile (leT s) (f :: rest)]
    exact walk_skip e s pa.2 0 _ _ hTall
  rw [hwalkdrop]
  -- the remaining suffix is strictly sorted, starts after s, and reaches e
  obtain ⟨d0, D', hD⟩ : ∃ d0 D', (f :: rest).dropWhile (leT s) = d0 :: D' := by
    rcases hDD : (f :: rest).dropWhile (leT s) with _ | ⟨d0, D'⟩
    · exact absurd hDD hDne
    · exact ⟨d0, D', rfl⟩
  have hDchain : StrictTimes ((f :: rest).dropWhile (leT s)) :=
    List.Chain'.sublist hsort (List.dropWhile_sublist _)
  have hd0 : s < d0.1 := by
    have := dropWhile_head_false (leT s) (f :: rest) (0, 0) hDne
    rw [hD] at this
    simp only [List.headD_cons, leT, decide_eq_false_iff_not, decide_eq_true_eq] at this
    omega
  have hchain2 : StrictTimes ((s, pa.2) :: (f :: rest).dropWhile (leT s)) := by
    rw [hD]
    rw [hD] at hDchain
    exact List.chain'_cons.mpr ⟨hd0, hDchain⟩
  have hlastD : e ≤ (((f :: rest).dropWhile (leT s)).getLastD (0, 0)).1 := by
    have hsplit := List.takeWhile_append_dropWhile (leT s) (f :: rest)
    have hgl : ((f :: rest).getLastD (0, 0)) = (((f :: rest).dropWhile (leT s)).getLastD (0, 0)) := by
      conv_lhs => rw [← hsplit]
      rw [getLastD_append, getLastD_congr _ hDne]
    rw [hde, hgl] at h3
    exact h3
  rw [walk_eq_clipSum e _ s _ 0 hchain2 h2 hDne hlastD, zero_add]

theorem takeWhile_split {α : Type} (p q : α → Bool) (hpq : ∀ x, p x = true → q x = true) :
    ∀ l : List α, l.takeWhile q = l.takeWhile p ++ (l.dropWhile p).takeWhile q := by
  intro l
  induction l with
  | nil => rfl
  | cons a t ih =>
    by_cases hp : p a = true
    · have hq : q a = true := hpq a hp
      rw [List.takeWhile_cons, if_pos hq, List.takeWhile_cons, if_pos hp,
          List.dropWhile_cons_of_pos hp, List.cons_append, ih]
    · rw [List.takeWhile_cons_of_neg hp, List.dropWhile_cons_of_neg hp, List.nil_append]

theorem dropWhile_dropWhile {α : Type} (p q : α → Bool) (hpq : ∀ x, p x = true → q x = true) :
    ∀ l : List α, (l.dropWhile p).dropWhile q = l.dropWhile q := by
  intro l
  induction l with
  | nil => rfl
  | cons a t ih =>
    by_cases hp : p a = true
    · rw [List.dropWhile_cons_of_pos hp, ih, List.dropWhile_cons, hpq a hp]
      simp
    · rw [List.dropWhile_cons_of_neg hp]

theorem strict_cons_dropWhile (l : List (ℤ × ℚ)) (hsort : StrictTimes l) (s : ℤ) (q : ℚ) :
    StrictTimes ((s, q) :: l.dropWhile (leT s)) := by
  rcases hD : l.dropWhile (leT s) with _ | ⟨d0, D'⟩
  · simp [StrictTimes]
  · have hDchain : StrictTimes (l.dropWhile (leT s)) :=
      List.Chain'.sublist hsort (List.dropWhile_sublist _)
    rw [hD] at hDchain
    have hDne : l.dropWhile (leT s) ≠ [] := by rw [hD]; simp
    have hd0 : s < d0.1 := by
      have := dropWhile_head_false (leT s) l (0, 0) hDne
      rw [hD] at this
      simp only [List.headD_cons, leT, decide_eq_false_iff_not, decide_eq_true_eq] at this
      omega
    exact List.chain'_cons.mpr ⟨hd0, hDchain⟩

theorem sorted_head_le_getLastD :
    ∀ (l : List (ℤ × ℚ)) (a : ℤ × ℚ) (d : ℤ × ℚ), SortedTimes (a :: l) →
      a.1 ≤ ((a :: l).getLastD d).1 := by
  intro l
  induction l with
  | nil => intro a d _; simp
  | cons b t ih =>
    intro a d hs
    have hab : a.1 ≤ b.1 := (List.chain'_cons.mp hs).1
    have := ih b a (List.chain'_cons.mp hs).2
    rw [List.getLastD_cons]
    exact le_trans hab this

theorem sorted_le_getLastD :
    ∀ (l : List (ℤ × ℚ)), SortedTimes l → ∀ x ∈ l, x.1 ≤ (l.getLastD (0, 0)).1 := by
  intro l
  induction l with
  | nil => intro _ x hx; exact absurd hx (List.not_mem_nil _)
  | cons a t ih =>
    intro hs x hx
    rcases List.mem_cons.mp hx with rfl | hx'
    · exact sorted_head_le_getLastD t x (0, 0) hs
    · have htail := (List.chain'_cons'.mp hs).2
      have := ih htail x hx'
      have htne : t ≠ [] := by rintro rfl; exact absurd hx' (List.not_mem_nil _)
      rw [List.getLastD_cons, getLastD_congr t htne a (0, 0)]
      exact this

theorem strict_head_lt_getLastD :
    ∀ (l : List (ℤ × ℚ)) (a : ℤ × ℚ) (d : ℤ × ℚ), StrictTimes (a :: l) → l ≠ [] →
      a.1 < ((a :: l).getLastD d).1 := by
  intro l
  induction l with
  | nil => intro a d _ h; exact absurd rfl h
  | cons b t ih =>
    intro a d hs _
    have hab : a.1 < b.1 := (List.chain'_cons.mp hs).1
    have htail : StrictTimes (b :: t) := (List.chain'_cons.mp hs).2
    cases t with
    | nil => rw [List.getLastD_cons]; simpa using hab
    | cons c t' =>
      rw [List.getLastD_cons]
      exact lt_trans hab (ih b a htail (by simp))

/-- A strictly sorted list has non-decreasing timestamps. -/
theorem StrictTimes.sorted {l : List (ℤ × ℚ)} (h : StrictTimes l) : SortedTimes l :=
  List.Chain'.imp (fun _ _ hxy => le_of_lt hxy) h

/-- When every timestamp is at most `e`, no clipping happens and the clipped
step sum is the plain step sum. -/
theorem clipSum_eq_stepSum (e : ℤ) :
    ∀ l : List (ℤ × ℚ), (∀ x ∈ l, x.1 ≤ e) → clipSum l e = stepSum l := by
  intro l
  induction l with
  | nil => intro _; rfl
  | cons a rest ih =>
    intro hall
    match rest with
    | [] => rfl
    | b :: rest' =>
      obtain ⟨t1, q1⟩ := a
      obtain ⟨t2, q2⟩ := b
      have h1 : t1 ≤ e := hall (t1, q1) (List.mem_cons_self _ _)
      have h2 : t2 ≤ e := hall (t2, q2) (List.mem_cons_of_mem _ (List.mem_cons_self _ _))
      rw [show clipSum ((t1, q1) :: (t2, q2) :: rest') e
            = q1 * ((min t2 e - min t1 e : ℤ) : ℚ) + clipSum ((t2, q2) :: rest') e from rfl,
          show stepSum ((t1, q1) :: (t2, q2) :: rest')
            = q1 * ((t2 - t1 : ℤ) : ℚ) + stepSum ((t2, q2) :: rest') from rfl,
          show min t2 e - min t1 e = t2 - t1 by omega,
          ih (fun x hx => hall x (List.mem_cons_of_mem _ hx))]

/-- Splitting a clipped step sum at an intermediate bound `b`: the part up to
`b` plus the part of the `b`-anchored suffix up to `c`. -/
theorem clipSum_split (b c : ℤ) (hbc : b ≤ c) :
    ∀ (l : List (ℤ × ℚ)) (t1 : ℤ) (q1 : ℚ), StrictTimes ((t1, q1) :: l) → t1 ≤ b →
      clipSum ((t1, q1) :: l) c
        = clipSum ((t1, q1) :: l) b
          + clipSum ((b, ((l.takeWhile (leT b)).getLastD (t1, q1)).2)
              :: l.dropWhile (leT b)) c := by
  intro l
  induction l with
  | nil => intro t1 q1 _ _; simp [clipSum]
  | cons x rest ih =>
    intro t1 q1 hchain h1b
    obtain ⟨t2, q2⟩ := x
    have h12 : t1 < t2 := (List.chain'_cons.mp hchain).1
    have htail : StrictTimes ((t2, q2) :: rest) := (List.chain'_cons.mp hchain).2
    by_cases h2b : t2 ≤ b
    · have hbd : leT b (t2, q2) = true := by simp [leT, h2b]
      rw [List.takeWhile_cons, if_pos hbd, List.getLastD_cons,
          List.dropWhile_cons_of_pos hbd]
      rw [show clipSum ((t1, q1) :: (t2, q2) :: rest) c
            = q1 * ((min t2 c - min t1 c : ℤ) : ℚ) + clipSum ((t2, q2) :: rest) c from rfl,
          show clipSum ((t1, q1) :: (t2, q2) :: rest) b
            = q1 * ((min t2 b - min t1 b : ℤ) : ℚ) + clipSum ((t2, q2) :: rest) b from rfl]
      rw [ih t2 q2 htail h2b]
      have hmc : min t2 c - min t1 c = t2 - t1 := by omega
      have hmb : min t2 b - min t1 b = t2 - t1 := by omega
      rw [hmc, hmb]
      ring
    · have hbd : leT b (t2, q2) = false := by simp [leT]; omega
      rw [List.takeWhile_cons_of_neg (by simp [hbd]), List.dropWhile_cons_of_neg (by simp [hbd])]
      rw [show ((([] : List (ℤ × ℚ)).getLastD (t1, q1)).2) = q1 from rfl]
      rw [show clipSum ((t1, q1) :: (t2, q2) :: rest) c
            = q1 * ((min t2 c - min t1 c : ℤ) : ℚ) + clipSum ((t2, q2) :: rest) c from rfl,
          show clipSum ((t1, q1) :: (t2, q2) :: rest) b
            = q1 * ((min t2 b - min t1 b : ℤ) : ℚ) + clipSum ((t2, q2) :: rest) b from rfl,
          show clipSum ((b, q1) :: (t2, q2) :: rest) c
            = q1 * ((min t2 c - min b c : ℤ) : ℚ) + clipSum ((t2, q2) :: rest) c from rfl]
      rw [clipSum_zero_of_head_ge b ((t2, q2) :: rest) htail.sorted
            (fun _ => by simp; omega)]
      have hm1 : min t1 c = t1 := by omega
      have hm2 : min t1 b = t1 := by omega
      have hm3 : min t2 b = b := by omega
      have hm4 : min b c = b := by omega
      rw [hm1, hm2, hm3, hm4]
      push_cast
      ring

/-! ## Claims C2 and C5 -/

/-- C2 (amended: the series' timestamps must be strictly increasing — with
tied timestamps the walk and the pairwise sum pick different tied values):
integrating a strictly sorted series over its full span equals the
step-function sum over all consecutive sample pairs. -/
theorem claim_C2_full_span_equals_step_sum (data : List (ℤ × ℚ)) (hne : data ≠ [])
    (hsort : StrictTimes data) :
    calculate_volume data (data.headD (0, 0)).1 (data.getLastD (0, 0)).1
      = stepSum data := by
  match data with
  | [f] =>
    simp [calculate_volume, stepSum]
  | f :: r0 :: rest' =>
    rw [List.headD_cons, List.getLastD_cons]
    have hfr : f.1 < r0.1 := (List.chain'_cons.mp hsort).1
    have hlt : f.1 < ((r0 :: rest').getLastD f).1 := by
      have := strict_head_lt_getLastD (r0 :: rest') f f hsort (by simp)
      rw [List.getLastD_cons] at this
      exact this
    rw [calculate_volume_eq_clipSum f (r0 :: rest') hsort f.1
          ((r0 :: rest').getLastD f).1 (le_refl _) hlt (le_refl _)]
    have hfT : leT f.1 f = true := by simp [leT]
    have hr0F : leT f.1 r0 = false := by simp [leT]; omega
    have hT : (f :: r0 :: rest').takeWhile (leT f.1) = [f] := by
      rw [List.takeWhile_cons, if_pos hfT, List.takeWhile_cons_of_neg (by simp [hr0F])]
    have hD : (f :: r0 :: rest').dropWhile (leT f.1) = r0 :: rest' := by
      rw [List.dropWhile_cons_of_pos hfT, List.dropWhile_cons_of_neg (by simp [hr0F])]
    rw [hT, hD]
    rw [show (([f].getLastD (0, 0)).2) = f.2 from rfl]
    rw [show ((f.1, f.2) : ℤ × ℚ) = f from rfl]
    refine clipSum_eq_stepSum _ _ ?_
    intro x hx
    have := sorted_le_getLastD (f :: r0 :: rest') hsort.sorted x hx
    rw [List.getLastD_cons] at this
    exact this

/-- C2 counterexample: on the series [(0,1),(10,2),(10,3),(20,4)] — a legal
Series per the spec's data model, which permits tied timestamps — the code
returns 1·10 + 2·10 = 30 over the full span, while the pairwise step sum is
1·10 + 2·0 + 3·10 = 40. -/
theorem claim_C2_full_span_equals_step_sum_cex :
    calculate_volume [((0 : ℤ), (1 : ℚ)), (10, 2), (10, 3), (20, 4)]
        (([((0 : ℤ), (1 : ℚ)), (10, 2), (10, 3), (20, 4)]).headD (0, 0)).1
        (([((0 : ℤ), (1 : ℚ)), (10, 2), (10, 3), (20, 4)]).getLastD (0, 0)).1
      ≠ stepSum [((0 : ℤ), (1 : ℚ)), (10, 2), (10, 3), (20, 4)] := by
  norm_num [calculate_volume, findAnchor, walk, stepSum]

/-- Witness for C2 (amended) at a concrete strictly sorted series. -/
theorem claim_C2_full_span_equals_step_sum_witness :
    calculate_volume [((0 : ℤ), (2 : ℚ)), (300, 3), (600, 1)]
        (([((0 : ℤ), (2 : ℚ)), (300, 3), (600, 1)]).headD (0, 0)).1
        (([((0 : ℤ), (2 : ℚ)), (300, 3), (600, 1)]).getLastD (0, 0)).1
      = stepSum [((0 : ℤ), (2 : ℚ)), (300, 3), (600, 1)] :=
  claim_C2_full_span_equals_step_sum _ (by simp)
    (by norm_num [StrictTimes, List.chain'_cons])

/-- The anchor value at `b` can be computed from the anchor value at `a ≤ b`
and the samples after `a`: the last sample at or before `b` is the last
`b`-qualifying sample after `a` when one exists, and the anchor at `a`
otherwise. -/
theorem anchor_split (l : List (ℤ × ℚ)) (a b : ℤ) (hab : a ≤ b) :
    ((((l.dropWhile (leT a)).takeWhile (leT b)).getLastD
        (a, ((l.takeWhile (leT a)).getLastD (0, 0)).2)).2)
      = ((l.takeWhile (leT b)).getLastD (0, 0)).2 := by
  have hmono : ∀ x : ℤ × ℚ, leT a x = true → leT b x = true := by
    intro x hx
    simp only [leT, decide_eq_true_eq] at hx ⊢
    omega
  rw [takeWhile_split (leT a) (leT b) hmono l, getLastD_append]
  cases hc2 : (l.dropWhile (leT a)).takeWhile (leT b) with
  | nil => rfl
  | cons z zs =>
    rw [getLastD_congr (z :: zs) (by simp) (a, ((l.takeWhile (leT a)).getLastD (0, 0)).2)
          ((l.takeWhile (leT a)).getLastD (0, 0))]

/-- C5 (amended: the series' timestamps must be strictly increasing — with
tied interior timestamps the two sides disagree because the sub-interval
anchored at the tie picks the last tied value while the spanning walk keeps
the first): volume integration is exactly additive over adjacent
sub-intervals lying inside the series span. -/
theorem claim_C5_additivity (data : List (ℤ × ℚ)) (hne : data ≠ [])
    (hsort : StrictTimes data) (a b c : ℤ) (hab : a < b) (hbc : b < c)
    (hfirst : (data.headD (0, 0)).1 ≤ a) (hlast : c ≤ (data.getLastD (0, 0)).1) :
    calculate_volume data a b + calculate_volume data b c
      = calculate_volume data a c := by
  match data with
  | f :: rest =>
    rw [List.headD_cons] at hfirst
    rw [List.getLastD_cons] at hlast
    have vab := calculate_volume_eq_clipSum f rest hsort a b hfirst hab (by omega)
    have vbc := calculate_volume_eq_clipSum f rest hsort b c (by omega) hbc hlast
    have vac := calculate_volume_eq_clipSum f rest hsort a c hfirst (by omega) hlast
    have hSchain : StrictTimes
        ((a, (((f :: rest).takeWhile (leT a)).getLastD (0, 0)).2)
          :: (f :: rest).dropWhile (leT a)) :=
      strict_cons_dropWhile (f :: rest) hsort a _
    have hsplit := clipSum_split b c (le_of_lt hbc) ((f :: rest).dropWhile (leT a)) a
      (((f :: rest).takeWhile (leT a)).getLastD (0, 0)).2 hSchain (le_of_lt hab)
    have hmono : ∀ x : ℤ × ℚ, leT a x = true → leT b x = true := by
      intro x hx
      simp only [leT, decide_eq_true_eq] at hx ⊢
      omega
    have hdd : ((f :: rest).dropWhile (leT a)).dropWhile (leT b)
        = (f :: rest).dropWhile (leT b) :=
      dropWhile_dropWhile (leT a) (leT b) hmono (f :: rest)
    rw [vab, vbc, vac, hsplit, hdd, anchor_split (f :: rest) a b (le_of_lt hab)]

/-- C5 counterexample: on the spec-legal series [(0,1),(10,2),(10,3),(20,1)]
with a = 0 < b = 10 < c = 20, the left side is 10 + 30 = 40 while the right
side is 30. -/
theorem claim_C5_additivity_cex :
    calculate_volume [((0 : ℤ), (1 : ℚ)), (10, 2), (10, 3), (20, 1)] 0 10
        + calculate_volume [((0 : ℤ), (1 : ℚ)), (10, 2), (10, 3), (20, 1)] 10 20
      ≠ calculate_volume [((0 : ℤ), (1 : ℚ)), (10, 2), (10, 3), (20, 1)] 0 20 := by
  norm_num [calculate_volume, findAnchor, walk]

/-- Witness for C5 (amended) at a concrete strictly sorted series. -/
theorem claim_C5_additivity_witness :
    calculate_volume [((0 : ℤ), (2 : ℚ)), (10, 1), (20, 3), (30, 1)] 5 12
        + calculate_volume [((0 : ℤ), (2 : ℚ)), (10, 1), (20, 3), (30, 1)] 12 25
      = calculate_volume [((0 : ℤ), (2 : ℚ)), (10, 1), (20, 3), (30, 1)] 5 25 :=
  claim_C5_additivity _ (by simp) (by norm_num [StrictTimes, List.chain'_cons])
    5 12 25 (by norm_num) (by norm_num) (by norm_num) (by norm_num)

/-! ## Claim C4: inclusive end in the scanner, exclusive end in the integrator -/

/-- Two sample lists agree on timestamps everywhere and on values strictly
before `e`; values at or beyond `e` may differ. -/
def ValueRel (e : ℤ) : (ℤ × ℚ) → (ℤ × ℚ) → Prop :=
  fun x y => x.1 = y.1 ∧ (x.1 < e → x.2 = y.2)

theorem forall₂_getLastD_fst {e : ℤ} :
    ∀ {l l' : List (ℤ × ℚ)}, List.Forall₂ (ValueRel e) l l' →
      ∀ d d' : ℤ × ℚ, d.1 = d'.1 → (l.getLastD d).1 = (l'.getLastD d').1 := by
  intro l l' h
  induction h with
  | nil => intro d d' hd; exact hd
  | @cons a b l₁ l₂ hab htail ih =>
    intro d d' _
    rw [List.getLastD_cons, List.getLastD_cons]
    exact ih a b hab.1

theorem findAnchor_congr (e s : ℤ) (hse : s < e) :
    ∀ {l l' : List (ℤ × ℚ)}, List.Forall₂ (ValueRel e) l l' →
      ∀ p : Option (ℤ × ℚ), findAnchor l s p = findAnchor l' s p := by
  intro l l' h
  induction h with
  | nil => intro p; rfl
  | @cons a b l₁ l₂ hab htail ih =>
    intro p
    obtain ⟨t, q⟩ := a
    obtain ⟨t', q'⟩ := b
    obtain ⟨h1, h2⟩ := hab
    simp only at h1
    subst h1
    by_cases hts : s < t
    · rw [show findAnchor ((t, q) :: l₁) s p = p by simp [findAnchor, hts],
          show findAnchor ((t, q') :: l₂) s p = p by simp [findAnchor, hts]]
    · have hq : q = q' := h2 (by omega)
      subst hq
      rw [show findAnchor ((t, q) :: l₁) s p = findAnchor l₁ s (some (t, q)) by
            simp [findAnchor, hts],
          show findAnchor ((t, q) :: l₂) s p = findAnchor l₂ s (some (t, q)) by
            simp [findAnchor, hts]]
      exact ih (some (t, q))

theorem walk_congr (e e1 : ℤ) (he1 : e1 ≤ e) :
    ∀ {l l' : List (ℤ × ℚ)}, List.Forall₂ (ValueRel e) l l' →
      ∀ (pT : ℤ) (pQ acc : ℚ), walk l e1 pT pQ acc = walk l' e1 pT pQ acc := by
  intro l l' h
  induction h with
  | nil => intro pT pQ acc; rfl
  | @cons a b l₁ l₂ hab htail ih =>
    intro pT pQ acc
    obtain ⟨t, q⟩ := a
    obtain ⟨t', q'⟩ := b
    obtain ⟨h1, h2⟩ := hab
    simp only at h1
    subst h1
    by_cases hsk : t ≤ pT
    · rw [show walk ((t, q) :: l₁) e1 pT pQ acc = walk l₁ e1 pT pQ acc by simp [walk, hsk],
          show walk ((t, q') :: l₂) e1 pT pQ acc = walk l₂ e1 pT pQ acc by simp [walk, hsk]]
      exact ih pT pQ acc
    · by_cases hfin : e1 ≤ t
      · rw [show walk ((t, q) :: l₁) e1 pT pQ acc = acc + pQ * ((e1 - pT : ℤ) : ℚ) by
              simp [walk, hsk, hfin],
            show walk ((t, q') :: l₂) e1 pT pQ acc = acc + pQ * ((e1 - pT : ℤ) : ℚ) by
              simp [walk, hsk, hfin]]
      · have hq : q = q' := h2 (by omega)
        subst hq
        rw [show walk ((t, q) :: l₁) e1 pT pQ acc
              = walk l₁ e1 t q (acc + pQ * ((t - pT : ℤ) : ℚ)) by simp [walk, hsk, hfin],
            show walk ((t, q) :: l₂) e1 pT pQ acc
              = walk l₂ e1 t q (acc + pQ * ((t - pT : ℤ) : ℚ)) by simp [walk, hsk, hfin]]
        exact ih t q _

theorem volume_tail_congr (e s1 e1 : ℤ) (hs1 : s1 < e) (he1 : e1 ≤ e)
    {l l' : List (ℤ × ℚ)} (hrel : List.Forall₂ (ValueRel e) l l') :
    (match findAnchor l s1 none with
     | none => (0 : ℚ)
     | some pa => walk l e1 (if pa.1 < s1 then s1 else pa.1) pa.2 0)
    = (match findAnchor l' s1 none with
       | none => (0 : ℚ)
       | some pa => walk l' e1 (if pa.1 < s1 then s1 else pa.1) pa.2 0) := by
  rw [findAnchor_congr e s1 hs1 hrel none]
  rcases hres : findAnchor l' s1 none with _ | pa
  · rfl
  · exact walk_congr e e1 he1 hrel _ _ _

/-- Values at or past `e` never influence the computed volume when
`start ≤ end`: the integrator's `end` is exclusive for sample values. -/
theorem volume_end_value_exclusive (data data' : List (ℤ × ℚ)) (s e : ℤ)
    (hsorted : SortedTimes data) (hse : s ≤ e)
    (hrel : List.Forall₂ (ValueRel e) data data') :
    calculate_volume data s e = calculate_volume data' s e := by
  cases hrel with
  | nil => rfl
  | @cons f f' rest rest' hff htail =>
    by_cases hse' : s = e
    · subst hse'
      simp [calculate_volume]
    · have hslt : s < e := lt_of_le_of_ne hse hse'
      have hf1 : f.1 = f'.1 := hff.1
      have hlast1 : (rest.getLastD f).1 = (rest'.getLastD f').1 :=
        forall₂_getLastD_fst htail f f' hf1
      simp only [calculate_volume]
      rw [if_neg hse', if_neg hse', ← hf1, ← hlast1]
      split_ifs with h1 h2 h3 h4 h5 h6 <;>
        first
          | rfl
          | (exfalso; omega)
          | (exact volume_tail_congr e _ _ (by omega) (by omega)
              (List.Forall₂.cons hff htail))

instance : IsTrans (DateTime × ℚ) (fun x y : DateTime × ℚ => x.1 ≤ y.1) :=
  ⟨fun _ _ _ h1 h2 => le_trans h1 h2⟩

/-- Entries already emitted stay in the scanner's output. -/
theorem dedLoop_res_mono :
    ∀ (data : List (DateTime × ℚ)) (s e : DateTime) (cur : Option ((ℤ × ℤ × ℤ) × ℚ × ℚ))
      (res : List ((ℤ × ℤ × ℤ) × ℚ × ℚ)) (r : (ℤ × ℤ × ℤ) × ℚ × ℚ),
      r ∈ res → r ∈ dedLoop data s e cur res := by
  intro data
  induction data with
  | nil =>
    intro s e cur res r hr
    rcases cur with _ | c
    · exact hr
    · exact List.mem_append_left _ hr
  | cons a rest ih =>
    intro s e cur res r hr
    obtain ⟨t, q⟩ := a
    by_cases h1 : t < s
    · rw [show dedLoop ((t, q) :: rest) s e cur res = dedLoop rest s e cur res by
            simp [dedLoop, h1]]
      exact ih s e cur res r hr
    · by_cases h2 : e < t
      · rcases cur with _ | c
        · rw [show dedLoop ((t, q) :: rest) s e none res = res by simp [dedLoop, h1, h2]]
          exact hr
        · rw [show dedLoop ((t, q) :: rest) s e (some c) res = res ++ [c] by
                simp [dedLoop, h1, h2]]
          exact List.mem_append_left _ hr
      · rcases cur with _ | ⟨d, mn, mx⟩
        · rw [show dedLoop ((t, q) :: rest) s e none res
                = dedLoop rest s e (some (dayOf t, q, q)) res by simp [dedLoop, h1, h2]]
          exact ih s e _ res r hr
        · by_cases h3 : dayOf t = d
          · rw [show dedLoop ((t, q) :: rest) s e (some (d, mn, mx)) res
                  = dedLoop rest s e
                      (some (d, (if q < mn then q else mn), (if mx < q then q else mx))) res
                  by simp [dedLoop, h1, h2, h3]]
            exact ih s e _ res r hr
          · rw [show dedLoop ((t, q) :: rest) s e (some (d, mn, mx)) res
                  = dedLoop rest s e (some (dayOf t, q, q)) (res ++ [(d, mn, mx)]) by
                  simp [dedLoop, h1, h2, h3]]
            exact ih s e _ _ r (List.mem_append_left _ hr)

/-- A live running (day, min, max) state is eventually flushed: the output
contains an entry for that day whose min/max bracket the state's. -/
theorem dedLoop_cur_flush :
    ∀ (data : List (DateTime × ℚ)) (s e : DateTime) (d : ℤ × ℤ × ℤ) (mn mx : ℚ)
      (res : List ((ℤ × ℤ × ℤ) × ℚ × ℚ)),
      ∃ r ∈ dedLoop data s e (some (d, mn, mx)) res, r.1 = d ∧ r.2.1 ≤ mn ∧ mx ≤ r.2.2 := by
  intro data
  induction data with
  | nil =>
    intro s e d mn mx res
    exact ⟨(d, mn, mx), List.mem_append_right _ (List.mem_cons_self _ _),
      rfl, le_refl _, le_refl _⟩
  | cons a rest ih =>
    intro s e d mn mx res
    obtain ⟨t, q⟩ := a
    by_cases h1 : t < s
    · rw [show dedLoop ((t, q) :: rest) s e (some (d, mn, mx)) res
            = dedLoop rest s e (some (d, mn, mx)) res by simp [dedLoop, h1]]
      exact ih s e d mn mx res
    · by_cases h2 : e < t
      · rw [show dedLoop ((t, q) :: rest) s e (some (d, mn, mx)) res = res ++ [(d, mn, mx)] by
              simp [dedLoop, h1, h2]]
        exact ⟨(d, mn, mx), List.mem_append_right _ (List.mem_cons_self _ _),
          rfl, le_refl _, le_refl _⟩
      · by_cases h3 : dayOf t = d
        · rw [show dedLoop ((t, q) :: rest) s e (some (d, mn, mx)) res
                = dedLoop rest s e
                    (some (d, (if q < mn then q else mn), (if mx < q then q else mx))) res
                by simp [dedLoop, h1, h2, h3]]
          obtain ⟨r, hrmem, hrd, hrmn, hrmx⟩ := ih s e d _ _ res
          refine ⟨r, hrmem, hrd, le_trans hrmn ?_, le_trans ?_ hrmx⟩
          · split_ifs with h
            · exact le_of_lt h
            · exact le_refl _
          · split_ifs with h
            · exact le_of_lt h
            · exact le_refl _
        · rw [show dedLoop ((t, q) :: rest) s e (some (d, mn, mx)) res
                = dedLoop rest s e (some (dayOf t, q, q)) (res ++ [(d, mn, mx)]) by
                simp [dedLoop, h1, h2, h3]]
          exact ⟨(d, mn, mx),
            dedLoop_res_mono rest s e _ _ _
              (List.mem_append_right _ (List.mem_cons_self _ _)),
            rfl, le_refl _, le_refl _⟩

/-- Any in-range sample of a sorted series — in particular one exactly at
`e` — is reflected in the scanner's output: some emitted entry carries its
calendar day and brackets its value. -/
theorem dedLoop_covers :
    ∀ (data : List (DateTime × ℚ)) (s e : DateTime)
      (cur : Option ((ℤ × ℤ × ℤ) × ℚ × ℚ)) (res : List ((ℤ × ℤ × ℤ) × ℚ × ℚ))
      (t0 : DateTime) (q0 : ℚ),
      List.Pairwise (fun x y : DateTime × ℚ => x.1 ≤ y.1) data →
      (t0, q0) ∈ data → s ≤ t0 → t0 ≤ e →
      ∃ r ∈ dedLoop data s e cur res, r.1 = dayOf t0 ∧ r.2.1 ≤ q0 ∧ q0 ≤ r.2.2 := by
  intro data
  induction data with
  | nil =>
    intro s e cur res t0 q0 _ hmem _ _
    exact absurd hmem (List.not_mem_nil _)
  | cons a rest ih =>
    intro s e cur res t0 q0 hpw hmem hs he
    obtain ⟨t, q⟩ := a
    rcases List.mem_cons.mp hmem with heq | htl
    · -- the sample is the head: it is processed and enters the running state
      cases heq
      have h1 : ¬ t0 < s := not_lt.mpr hs
      have h2 : ¬ e < t0 := not_lt.mpr he
      rcases cur with _ | ⟨d, mn, mx⟩
      · rw [show dedLoop ((t0, q0) :: rest) s e none res
              = dedLoop rest s e (some (dayOf t0, q0, q0)) res by simp [dedLoop, h1, h2]]
        obtain ⟨r, hrmem, hrd, hrmn, hrmx⟩ := dedLoop_cur_flush rest s e (dayOf t0) q0 q0 res
        exact ⟨r, hrmem, hrd, hrmn, hrmx⟩
      · by_cases h3 : dayOf t0 = d
        · rw [show dedLoop ((t0, q0) :: rest) s e (some (d, mn, mx)) res
                = dedLoop rest s e
                    (some (d, (if q0 < mn then q0 else mn), (if mx < q0 then q0 else mx))) res
                by simp [dedLoop, h1, h2, h3]]
          obtain ⟨r, hrmem, hrd, hrmn, hrmx⟩ := dedLoop_cur_flush rest s e d _ _ res
          refine ⟨r, hrmem, h3 ▸ hrd, le_trans hrmn ?_, le_trans ?_ hrmx⟩
          · split_ifs with h
            · exact le_refl _
            · exact not_lt.mp h
          · split_ifs with h
            · exact le_refl _
            · exact not_lt.mp h
        · rw [show dedLoop ((t0, q0) :: rest) s e (some (d, mn, mx)) res
                = dedLoop rest s e (some (dayOf t0, q0, q0)) (res ++ [(d, mn, mx)]) by
                simp [dedLoop, h1, h2, h3]]
          obtain ⟨r, hrmem, hrd, hrmn, hrmx⟩ :=
            dedLoop_cur_flush rest s e (dayOf t0) q0 q0 (res ++ [(d, mn, mx)])
          exact ⟨r, hrmem, hrd, hrmn, hrmx⟩
    · -- the sample is further on; the head cannot trigger the break
      have htle : t ≤ t0 := (List.pairwise_cons.mp hpw).1 (t0, q0) htl
      have hpw' := (List.pairwise_cons.mp hpw).2
      by_cases h1 : t < s
      · rw [show dedLoop ((t, q) :: rest) s e cur res = dedLoop rest s e cur res by
              simp [dedLoop, h1]]
        exact ih s e cur res t0 q0 hpw' htl hs he
      · have h2 : ¬ e < t := not_lt.mpr (le_trans htle he)
        rcases cur with _ | ⟨d, mn, mx⟩
        · rw [show dedLoop ((t, q) :: rest) s e none res
                = dedLoop rest s e (some (dayOf t, q, q)) res by simp [dedLoop, h1, h2]]
          exact ih s e _ res t0 q0 hpw' htl hs he
        · by_cases h3 : dayOf t = d
          · rw [show dedLoop ((t, q) :: rest) s e (some (d, mn, mx)) res
                  = dedLoop rest s e
                      (some (d, (if q < mn then q else mn), (if mx < q then q else mx))) res
                  by simp [dedLoop, h1, h2, h3]]
            exact ih s e _ res t0 q0 hpw' htl hs he
          · rw [show dedLoop ((t, q) :: rest) s e (some (d, mn, mx)) res
                  = dedLoop rest s e (some (dayOf t, q, q)) (res ++ [(d, mn, mx)]) by
                  simp [dedLoop, h1, h2, h3]]
            exact ih s e _ _ t0 q0 hpw' htl hs he

/-- C4: for a sorted series and an interval with start ≤ end, a sample whose
timestamp equals `end` exactly is included in the daily-extremes scan (its
day is emitted with min/max bracketing its value), whereas volume integration
never uses the value of a sample at or beyond `end` — replacing all such
values leaves the volume unchanged. -/
theorem claim_C4_end_inclusive_vs_exclusive :
    (∀ (data : List (DateTime × ℚ)) (s e : DateTime) (q : ℚ),
        List.Chain' (fun x y : DateTime × ℚ => x.1 ≤ y.1) data → s ≤ e →
        (e, q) ∈ data →
        ∃ r ∈ get_daily_extremes data s e, r.1 = dayOf e ∧ r.2.1 ≤ q ∧ q ≤ r.2.2) ∧
    (∀ (data data' : List (ℤ × ℚ)) (s e : ℤ),
        SortedTimes data → s ≤ e → List.Forall₂ (ValueRel e) data data' →
        calculate_volume data s e = calculate_volume data' s e) := by
  constructor
  · intro data s e q hchain hse hmem
    have hnoswap : get_daily_extremes data s e = dedLoop data s e none [] := by
      simp [get_daily_extremes, not_lt.mpr hse]
    rw [hnoswap]
    exact dedLoop_covers data s e none [] e q
      (List.chain'_iff_pairwise.mp hchain) hmem hse (le_refl e)
  · intro data data' s e hsorted hse hrel
    exact volume_end_value_exclusive data data' s e hsorted hse hrel

/-- Witness for C4: a sample exactly at `end` shows up in the daily extremes,
and changing the value of the sample at `end` does not change the volume. -/
theorem claim_C4_end_inclusive_vs_exclusive_witness :
    (∃ r ∈ get_daily_extremes
        [((⟨2000, 1, 1, 0, 0, 0⟩ : DateTime), (2 : ℚ)), (⟨2000, 1, 2, 0, 0, 0⟩, 5)]
        ⟨2000, 1, 1, 0, 0, 0⟩ ⟨2000, 1, 2, 0, 0, 0⟩,
        r.1 = dayOf ⟨2000, 1, 2, 0, 0, 0⟩ ∧ r.2.1 ≤ 5 ∧ (5 : ℚ) ≤ r.2.2) ∧
    calculate_volume [((0 : ℤ), (1 : ℚ)), (10, 2)] 0 10
      = calculate_volume [((0 : ℤ), (1 : ℚ)), (10, 7)] 0 10 :=
  ⟨claim_C4_end_inclusive_vs_exclusive.1 _ _ _ 5
      (List.chain'_cons.mpr ⟨by decide, List.chain'_singleton _⟩)
      (by decide) (by simp),
   claim_C4_end_inclusive_vs_exclusive.2 _ _ 0 10
      (by norm_num [SortedTimes, List.chain'_cons]) (by norm_num)
      (List.Forall₂.cons ⟨rfl, fun _ => rfl⟩
        (List.Forall₂.cons ⟨rfl, fun h => absurd h (by norm_num)⟩ List.Forall₂.nil))⟩

/-! ## Claims C3, C6, C7: lookup-table interpolation -/

/-- Every index below the length of the leading `< x` run holds a value
`< x`. -/
theorem takeWhile_lt_getD (x : ℚ) :
    ∀ (xs : List ℚ) (j : ℕ), j < (xs.takeWhile (fun v => decide (v < x))).length →
      xs.getD j 0 < x := by
  intro xs
  induction xs with
  | nil => intro j hj; simp at hj
  | cons a t ih =>
    intro j hj
    by_cases ha : a < x
    · rw [List.takeWhile_cons, if_pos (by simpa using ha)] at hj
      cases j with
      | zero => simpa using ha
      | succ k =>
        rw [List.getD_cons_succ]
        exact ih k (by simpa using hj)
    · rw [List.takeWhile_cons, if_neg (by simpa using ha)] at hj
      simp at hj

/-- The element right after the leading `< x` run (when it exists) is
not `< x`. -/
theorem takeWhile_lt_stop (x : ℚ) :
    ∀ (xs : List ℚ), (xs.takeWhile (fun v => decide (v < x))).length < xs.length →
      ¬ xs.getD (xs.takeWhile (fun v => decide (v < x))).length 0 < x := by
  intro xs
  induction xs with
  | nil => intro h; simp at h
  | cons a t ih =>
    intro h
    by_cases ha : a < x
    · rw [List.takeWhile_cons, if_pos (by simpa using ha)] at h ⊢
      simp only [List.length_cons, List.getD_cons_succ]
      exact ih (by simpa using h)
    · rw [List.takeWhile_cons, if_neg (by simpa using ha)]
      simpa using ha

/-- `bisect_left` of a sorted list computes the canonical leftmost insertion
index: given that everything before `i` is `< x` and position `i` (if any)
is not, the result is `i`. -/
theorem bisect_left_eq (x : ℚ) :
    ∀ (xs : List ℚ) (i : ℕ), i ≤ xs.length →
      (∀ j, j < i → xs.getD j 0 < x) →
      (i < xs.length → ¬ xs.getD i 0 < x) →
      bisect_left xs x = i := by
  intro xs
  induction xs with
  | nil =>
    intro i hi _ _
    simp at hi
    simp [bisect_left, hi]
  | cons a t ih =>
    intro i hi hlt hge
    cases i with
    | zero =>
      have ha : ¬ a < x := by simpa using hge (by simp)
      simp [bisect_left, List.takeWhile_cons, ha]
    | succ k =>
      have ha : a < x := by simpa using hlt 0 (Nat.succ_pos k)
      have := ih k (by simpa using hi)
        (fun j hj => by simpa using hlt (j + 1) (by omega))
        (fun hk => by simpa using hge (by simpa using hk))
      simp only [bisect_left, List.takeWhile_cons, if_pos (by simpa using ha : decide (a < x) = true),
        List.length_cons]
      simp only [bisect_left] at this
      omega

theorem get?_eq_some_getD (l : List ℚ) (n : ℕ) (h : n < l.length) :
    l.get? n = some (l.getD n 0) := by
  rw [List.get?_eq_getElem?, List.getElem?_eq_getElem h, List.getD_eq_getElem l 0 h]

theorem getLast?_eq_some_getD (l : List ℚ) (h : 0 < l.length) :
    l.getLast? = some (l.getD (l.length - 1) 0) := by
  rw [List.getLast?_eq_getElem?, List.getElem?_eq_getElem (by omega),
    List.getD_eq_getElem l 0 (by omega)]

theorem strict_getD_lt (xs : List ℚ) (hsort : List.Chain' (· < ·) xs) (i j : ℕ)
    (hij : i < j) (hj : j < xs.length) : xs.getD i 0 < xs.getD j 0 := by
  rw [List.getD_eq_getElem xs 0 (lt_trans hij hj), List.getD_eq_getElem xs 0 hj]
  exact List.pairwise_iff_getElem.mp (List.chain'_iff_pairwise.mp hsort) i j
    (lt_trans hij hj) hj hij

/-- Reduction of `interp` in the interior case: both clamps fail, so the
result is the linear-interpolation formula on the bracket around the
leftmost insertion point. -/
theorem interp_interior (xs ys : List ℚ) (hlen : xs.length = ys.length)
    (h2 : 2 ≤ xs.length) (x : ℚ)
    (hlo : ¬ x ≤ xs.getD 0 0) (hhi : ¬ xs.getD (xs.length - 1) 0 ≤ x)
    (hi0 : 0 < bisect_left xs x) (hilen : bisect_left xs x < xs.length) :
    interp x xs ys = some (ys.getD (bisect_left xs x - 1) 0
      + (x - xs.getD (bisect_left xs x - 1) 0)
        / (xs.getD (bisect_left xs x) 0 - xs.getD (bisect_left xs x - 1) 0)
        * (ys.getD (bisect_left xs x) 0 - ys.getD (bisect_left xs x - 1) 0)) := by
  match xs, h2 with
  | x0 :: x1 :: xr, _ =>
    have hlo' : ¬ x ≤ x0 := by simpa using hlo
    have hgl := getLast?_eq_some_getD (x0 :: x1 :: xr) (by simp)
    have hg1 := get?_eq_some_getD (x0 :: x1 :: xr) (bisect_left (x0 :: x1 :: xr) x - 1)
      (by omega)
    have hg2 := get?_eq_some_getD (x0 :: x1 :: xr) (bisect_left (x0 :: x1 :: xr) x) hilen
    have hg3 := get?_eq_some_getD ys (bisect_left (x0 :: x1 :: xr) x - 1) (by omega)
    have hg4 := get?_eq_some_getD ys (bisect_left (x0 :: x1 :: xr) x) (by omega)
    simp only [interp, List.head?_cons, if_neg hlo', hgl, if_neg hhi, hg1, hg2, hg3, hg4]

/-- C3 (amended: the code has no InvalidTable check — an empty table fails
with an index error, but a one-pair table does *not* fail: every query
returns its single y). -/
theorem claim_C3_small_tables (x : ℚ) :
    (∀ ys : List ℚ, interp x [] ys = none) ∧
    (∀ x0 y0 : ℚ, interp x [x0] [y0] = some y0) := by
  constructor
  · intro ys; rfl
  · intro x0 y0
    by_cases h : x ≤ x0
    · simp [interp, h]
    · simp [interp, h, le_of_not_le h]

/-- C3 counterexample: evaluating a 1-pair lookup table does not fail at all
— `interp 3 [1] [5]` succeeds and returns `5` — refuting that every build or
evaluation of a table with fewer than 2 pairs fails with InvalidTable. -/
theorem claim_C3_small_tables_cex : interp 3 [1] [5] = some 5 := by
  norm_num [interp]

theorem bisect_left_lt_getD (x : ℚ) (xs : List ℚ) (j : ℕ) (hj : j < bisect_left xs x) :
    xs.getD j 0 < x :=
  takeWhile_lt_getD x xs j hj

theorem bisect_left_stop (x : ℚ) (xs : List ℚ) (h : bisect_left xs x < xs.length) :
    ¬ xs.getD (bisect_left xs x) 0 < x :=
  takeWhile_lt_stop x xs h

/-- C6: a lookup table of at least 2 pairs, strictly sorted by x ascending,
clamps below the minimum x to the first y and above the maximum x to the
last y, and reproduces every tabulated value exactly:
`evaluate(xs[i]) = ys[i]`. -/
theorem claim_C6_clamp_and_exact_values (xs ys : List ℚ) (hlen : xs.length = ys.length)
    (h2 : 2 ≤ xs.length) (hsort : List.Chain' (· < ·) xs) :
    (∀ x, x ≤ xs.getD 0 0 → interp x xs ys = some (ys.getD 0 0)) ∧
    (∀ x, xs.getD (xs.length - 1) 0 ≤ x →
      interp x xs ys = some (ys.getD (ys.length - 1) 0)) ∧
    (∀ i, i < xs.length → interp (xs.getD i 0) xs ys = some (ys.getD i 0)) := by
  have hy0 : 0 < ys.length := by omega
  have ha : ∀ x, x ≤ xs.getD 0 0 → interp x xs ys = some (ys.getD 0 0) := by
    intro x hx
    match xs, ys, h2, hy0 with
    | x0 :: xt, y0 :: yt, _, _ =>
      simp only [interp, List.head?_cons, if_pos (show x ≤ x0 by simpa using hx)]
      rfl
  have hb : ∀ x, xs.getD (xs.length - 1) 0 ≤ x →
      interp x xs ys = some (ys.getD (ys.length - 1) 0) := by
    intro x hx
    match xs, h2 with
    | x0 :: x1 :: xr, _ =>
      have hx0lt : (x0 :: x1 :: xr).getD 0 0
          < (x0 :: x1 :: xr).getD ((x0 :: x1 :: xr).length - 1) 0 :=
        strict_getD_lt _ hsort 0 ((x0 :: x1 :: xr).length - 1) (by simp) (by simp)
      have h00 : (x0 :: x1 :: xr).getD 0 0 = x0 := rfl
      rw [h00] at hx0lt
      have hlo : ¬ x ≤ x0 := by intro hc; linarith
      simp only [interp, List.head?_cons, if_neg hlo,
        getLast?_eq_some_getD (x0 :: x1 :: xr) (by simp), if_pos hx,
        getLast?_eq_some_getD ys hy0]
  refine ⟨ha, hb, ?_⟩
  intro i hi
  by_cases hi0 : i = 0
  · subst hi0
    exact ha _ (le_refl _)
  by_cases hiN : i = xs.length - 1
  · have hyi : ys.getD i 0 = ys.getD (ys.length - 1) 0 := by rw [hiN, hlen]
    rw [hyi, hiN]
    exact hb _ (le_refl _)
  -- interior index
  have hi1 : 0 < i := Nat.pos_of_ne_zero hi0
  have hi2 : i < xs.length - 1 := by omega
  have hblt : bisect_left xs (xs.getD i 0) = i :=
    bisect_left_eq (xs.getD i 0) xs i (le_of_lt hi)
      (fun j hj => strict_getD_lt xs hsort j i hj hi)
      (fun _ => lt_irrefl _)
  have hlo : ¬ xs.getD i 0 ≤ xs.getD 0 0 :=
    not_le.mpr (strict_getD_lt xs hsort 0 i hi1 hi)
  have hhi : ¬ xs.getD (xs.length - 1) 0 ≤ xs.getD i 0 :=
    not_le.mpr (strict_getD_lt xs hsort i (xs.length - 1) hi2 (by omega))
  rw [interp_interior xs ys hlen h2 _ hlo hhi (by omega) (by omega)]
  rw [hblt]
  have hne : xs.getD i 0 - xs.getD (i - 1) 0 ≠ 0 :=
    sub_ne_zero.mpr (ne_of_gt (strict_getD_lt xs hsort (i - 1) i (by omega) hi))
  simp only [Option.some.injEq]
  rw [div_self hne]
  ring

/-- Witness for C6 at the concrete table [(1,10),(2,20),(4,40)]. -/
theorem claim_C6_clamp_and_exact_values_witness :
    (∀ x, x ≤ ([(1 : ℚ), 2, 4]).getD 0 0 →
      interp x [(1 : ℚ), 2, 4] [(10 : ℚ), 20, 40] = some (([(10 : ℚ), 20, 40]).getD 0 0)) ∧
    (∀ x, ([(1 : ℚ), 2, 4]).getD (([(1 : ℚ), 2, 4]).length - 1) 0 ≤ x →
      interp x [(1 : ℚ), 2, 4] [(10 : ℚ), 20, 40]
        = some (([(10 : ℚ), 20, 40]).getD (([(10 : ℚ), 20, 40]).length - 1) 0)) ∧
    (∀ i, i < ([(1 : ℚ), 2, 4]).length →
      interp (([(1 : ℚ), 2, 4]).getD i 0) [(1 : ℚ), 2, 4] [(10 : ℚ), 20, 40]
        = some (([(10 : ℚ), 20, 40]).getD i 0)) :=
  claim_C6_clamp_and_exact_values [(1 : ℚ), 2, 4] [(10 : ℚ), 20, 40] rfl (by norm_num)
    (by norm_num [List.chain'_cons])

/-- C7: for a table of at least 2 pairs sorted by x ascending (ties allowed)
and a query strictly inside the domain, the bracket around the leftmost
insertion point satisfies `x0 < x1` strictly, so the interpolation divides by
a non-zero difference and produces the linear-interpolation value. -/
theorem claim_C7_bracket_strict (xs ys : List ℚ) (hlen : xs.length = ys.length)
    (h2 : 2 ≤ xs.length) (hsort : List.Chain' (· ≤ ·) xs) (x : ℚ)
    (hlo : xs.getD 0 0 < x) (hhi : x < xs.getD (xs.length - 1) 0) :
    0 < bisect_left xs x ∧ bisect_left xs x < xs.length ∧
    xs.getD (bisect_left xs x - 1) 0 < xs.getD (bisect_left xs x) 0 ∧
    xs.getD (bisect_left xs x) 0 - xs.getD (bisect_left xs x - 1) 0 ≠ 0 ∧
    interp x xs ys = some (ys.getD (bisect_left xs x - 1) 0
      + (x - xs.getD (bisect_left xs x - 1) 0)
        / (xs.getD (bisect_left xs x) 0 - xs.getD (bisect_left xs x - 1) 0)
        * (ys.getD (bisect_left xs x) 0 - ys.getD (bisect_left xs x - 1) 0)) := by
  have hile : bisect_left xs x ≤ xs.length := (List.takeWhile_sublist _).length_le
  have hilen : bisect_left xs x < xs.length := by
    rcases lt_or_eq_of_le hile with h | h
    · exact h
    · exfalso
      have := bisect_left_lt_getD x xs (xs.length - 1) (by omega)
      linarith
  have hi0 : 0 < bisect_left xs x := by
    rcases Nat.eq_zero_or_pos (bisect_left xs x) with h | h
    · exfalso
      have hstop := bisect_left_stop x xs (by omega)
      rw [h] at hstop
      exact hstop hlo
    · exact h
  have hx0 : xs.getD (bisect_left xs x - 1) 0 < x := bisect_left_lt_getD x xs _ (by omega)
  have hx1 : x ≤ xs.getD (bisect_left xs x) 0 := not_lt.mp (bisect_left_stop x xs hilen)
  have hbr : xs.getD (bisect_left xs x - 1) 0 < xs.getD (bisect_left xs x) 0 :=
    lt_of_lt_of_le hx0 hx1
  exact ⟨hi0, hilen, hbr, sub_ne_zero.mpr (ne_of_gt hbr),
    interp_interior xs ys hlen h2 x (not_le.mpr hlo) (not_le.mpr hhi) hi0 hilen⟩

/-- Witness for C7 at the table [(1,10),(2,20),(4,40)] with query x = 3. -/
theorem claim_C7_bracket_strict_witness :
    0 < bisect_left [(1 : ℚ), 2, 4] 3 ∧
    bisect_left [(1 : ℚ), 2, 4] 3 < ([(1 : ℚ), 2, 4]).length ∧
    ([(1 : ℚ), 2, 4]).getD (bisect_left [(1 : ℚ), 2, 4] 3 - 1) 0
      < ([(1 : ℚ), 2, 4]).getD (bisect_left [(1 : ℚ), 2, 4] 3) 0 ∧
    ([(1 : ℚ), 2, 4]).getD (bisect_left [(1 : ℚ), 2, 4] 3) 0
      - ([(1 : ℚ), 2, 4]).getD (bisect_left [(1 : ℚ), 2, 4] 3 - 1) 0 ≠ 0 ∧
    interp 3 [(1 : ℚ), 2, 4] [(10 : ℚ), 20, 40]
      = some (([(10 : ℚ), 20, 40]).getD (bisect_left [(1 : ℚ), 2, 4] 3 - 1) 0
        + ((3 : ℚ) - ([(1 : ℚ), 2, 4]).getD (bisect_left [(1 : ℚ), 2, 4] 3 - 1) 0)
          / (([(1 : ℚ), 2, 4]).getD (bisect_left [(1 : ℚ), 2, 4] 3) 0
            - ([(1 : ℚ), 2, 4]).getD (bisect_left [(1 : ℚ), 2, 4] 3 - 1) 0)
          * (([(10 : ℚ), 20, 40]).getD (bisect_left [(1 : ℚ), 2, 4] 3) 0
            - ([(10 : ℚ), 20, 40]).getD (bisect_left [(1 : ℚ), 2, 4] 3 - 1) 0)) :=
  claim_C7_bracket_strict [(1 : ℚ), 2, 4] [(10 : ℚ), 20, 40] rfl (by norm_num)
    (by norm_num [List.chain'_cons]) 3 (by norm_num) (by norm_num)

/-! ## Claim C1: hydrologic-year splitting -/

theorem hydro_year_mono (t t' : DateTime) (h : t ≤ t') : hydro_year t ≤ hydro_year t' := by
  rw [DateTime.le_def] at h
  unfold hydro_year
  split_ifs <;> omega

theorem hydroStart_le_self (t : DateTime) (hv : t.Valid) :
    hydroStart (hydro_year t) ≤ t := by
  obtain ⟨h1, h2, h3, h4, h5, h6, h7, h8, h9, h10⟩ := hv
  unfold hydroStart hydro_year
  split_ifs with hm <;> (rw [DateTime.le_def]; dsimp only; omega)

theorem self_le_hydroEnd (t : DateTime) (hv : t.Valid) :
    t ≤ hydroEnd (hydro_year t) := by
  obtain ⟨h1, h2, h3, h4, h5, h6, h7, h8, h9, h10⟩ := hv
  unfold hydroEnd hydro_year
  split_ifs with hm <;> (rw [DateTime.le_def]; dsimp only; omega)

theorem hydroStart_lt_hydroEnd (n : ℤ) : hydroStart n < hydroEnd n := by
  rw [DateTime.lt_def]
  unfold hydroStart hydroEnd
  dsimp only
  omega

theorem hydroStart_le_hydroEnd_iff (m n : ℤ) : hydroStart m ≤ hydroEnd n ↔ m ≤ n := by
  rw [DateTime.le_def]
  unfold hydroStart hydroEnd
  dsimp only
  omega

theorem hydro_year_hydroStart (n : ℤ) : hydro_year (hydroStart n) = n := by
  unfold hydro_year hydroStart
  dsimp only
  norm_num

theorem hydro_year_hydroEnd (n : ℤ) : hydro_year (hydroEnd n) = n := by
  unfold hydro_year hydroEnd
  dsimp only
  norm_num

/-- The splitter's body once the direction is normalized (`s ≤ e`): used to
state properties of `compute_hydrologic_year_volumes` uniformly. -/
def splitUnswapped (data : List (DateTime × ℚ)) (s e : DateTime) : List YearVolumeResult :=
  ((List.range (hydro_year e + 1 - hydro_year s).toNat).map
      (fun k : ℕ => hydro_year s + (k : ℤ))).filterMap
    (fun year =>
      if min e (hydroEnd year) ≤ max s (hydroStart year) then none
      else some { year := year, interval_start := max s (hydroStart year),
                  interval_end := min e (hydroEnd year),
                  volume_m3 := calculate_volume
                    (data.map (fun x => (x.1.toSec, x.2)))
                    (max s (hydroStart year)).toSec (min e (hydroEnd year)).toSec })

theorem compute_eq_splitUnswapped (data : List (DateTime × ℚ)) (s e : DateTime) :
    compute_hydrologic_year_volumes data s e
      = splitUnswapped data (min s e) (max s e) := by
  unfold compute_hydrologic_year_volumes splitUnswapped
  by_cases h : e < s
  · rw [if_pos h, min_eq_right (le_of_lt h), max_eq_left (le_of_lt h)]
  · rw [if_neg h, min_eq_left (not_lt.mp h), max_eq_right (not_lt.mp h)]

theorem mem_splitUnswapped_iff (data : List (DateTime × ℚ)) (s e : DateTime)
    (r : YearVolumeResult) :
    r ∈ splitUnswapped data s e ↔
      (hydro_year s ≤ r.year ∧ r.year ≤ hydro_year e ∧
       max s (hydroStart r.year) < min e (hydroEnd r.year) ∧
       r.interval_start = max s (hydroStart r.year) ∧
       r.interval_end = min e (hydroEnd r.year) ∧
       r.volume_m3 = calculate_volume (data.map (fun x => (x.1.toSec, x.2)))
         (max s (hydroStart r.year)).toSec (min e (hydroEnd r.year)).toSec) := by
  unfold splitUnswapped
  rw [List.mem_filterMap]
  constructor
  · rintro ⟨n, hn, hfn⟩
    obtain ⟨k, hk, hkn⟩ := List.mem_map.mp hn
    rw [List.mem_range] at hk
    subst hkn
    split_ifs at hfn with hguard
    obtain rfl := Option.some.inj hfn
    refine ⟨by dsimp only; omega, by dsimp only; omega, not_le.mp hguard, rfl, rfl, rfl⟩
  · rintro ⟨h1, h2, h3, h4, h5, h6⟩
    refine ⟨r.year,
      List.mem_map.mpr ⟨(r.year - hydro_year s).toNat,
        List.mem_range.mpr (by omega), by omega⟩, ?_⟩
    rw [if_neg (not_le.mpr h3), ← h6, ← h5, ← h4]


/-- Core content of C1 on the direction-normalized splitter: bounds of every
emitted interval, exact characterization of the emitted years, and the
pointwise union of the emitted intervals. -/
theorem splitUnswapped_union (data : List (DateTime × ℚ)) (s e : DateTime)
    (hvs : s.Valid) (hve : e.Valid) (hse : s < e) :
    (∀ r ∈ splitUnswapped data s e,
       hydroStart r.year ≤ r.interval_start ∧ r.interval_end ≤ hydroEnd r.year ∧
       s ≤ r.interval_start ∧ r.interval_end ≤ e) ∧
    (∀ n : ℤ, (∃ r ∈ splitUnswapped data s e, r.year = n) ↔
       (hydro_year s ≤ n ∧ n ≤ hydro_year e ∧
         max s (hydroStart n) < min e (hydroEnd n))) ∧
    (∀ t : DateTime, t.Valid →
       ((∃ r ∈ splitUnswapped data s e, r.interval_start ≤ t ∧ t ≤ r.interval_end) ↔
        (s ≤ t ∧ t ≤ e ∧ ¬(t = s ∧ s = hydroEnd (hydro_year s))
          ∧ ¬(t = e ∧ e = hydroStart (hydro_year e))))) := by
  refine ⟨?_, ?_, ?_⟩
  · intro r hr
    obtain ⟨h1, h2, h3, h4, h5, h6⟩ := (mem_splitUnswapped_iff data s e r).mp hr
    rw [h4, h5]
    exact ⟨le_max_right _ _, min_le_right _ _, le_max_left _ _, min_le_left _ _⟩
  · intro n
    constructor
    · rintro ⟨r, hr, rfl⟩
      obtain ⟨h1, h2, h3, _⟩ := (mem_splitUnswapped_iff data s e r).mp hr
      exact ⟨h1, h2, h3⟩
    · rintro ⟨h1, h2, h3⟩
      exact ⟨⟨n, max s (hydroStart n), min e (hydroEnd n),
          calculate_volume (data.map (fun x => (x.1.toSec, x.2)))
            (max s (hydroStart n)).toSec (min e (hydroEnd n)).toSec⟩,
        (mem_splitUnswapped_iff data s e _).mpr ⟨h1, h2, h3, rfl, rfl, rfl⟩, rfl⟩
  · intro t hvt
    constructor
    · rintro ⟨r, hr, hts, hte⟩
      obtain ⟨h1, h2, h3, h4, h5, _⟩ := (mem_splitUnswapped_iff data s e r).mp hr
      rw [h4] at hts
      rw [h5] at hte
      refine ⟨le_trans (le_max_left _ _) hts, le_trans hte (min_le_left _ _), ?_, ?_⟩
      · rintro ⟨rfl, hbd⟩
        have hx : hydroStart r.year ≤ t := le_trans (le_max_right t _) hts
        rw [hbd] at hx
        have hyr_eq : r.year = hydro_year t :=
          le_antisymm ((hydroStart_le_hydroEnd_iff _ _).mp hx) h1
        have c1 : min e (hydroEnd r.year) ≤ t := by
          rw [hyr_eq, ← hbd]
          exact min_le_right _ _
        exact absurd h3 (not_lt.mpr (le_trans c1 (le_max_left t _)))
      · rintro ⟨rfl, hbd⟩
        have hx : t ≤ hydroEnd r.year := le_trans hte (min_le_right _ _)
        rw [hbd] at hx
        have hyr_eq : r.year = hydro_year t :=
          le_antisymm h2 ((hydroStart_le_hydroEnd_iff _ _).mp hx)
        have c1 : t ≤ max s (hydroStart r.year) := by
          rw [hyr_eq, ← hbd]
          exact le_max_right _ _
        exact absurd h3 (not_lt.mpr (le_trans (min_le_left _ _) c1))
    · rintro ⟨hst, hte, hex1, hex2⟩
      have h1 : hydro_year s ≤ hydro_year t := hydro_year_mono _ _ hst
      have h2 : hydro_year t ≤ hydro_year e := hydro_year_mono _ _ hte
      have ha : max s (hydroStart (hydro_year t)) ≤ t :=
        max_le hst (hydroStart_le_self t hvt)
      have hb : t ≤ min e (hydroEnd (hydro_year t)) :=
        le_min hte (self_le_hydroEnd t hvt)
      have hab : max s (hydroStart (hydro_year t)) < min e (hydroEnd (hydro_year t)) := by
        rcases lt_or_ge (max s (hydroStart (hydro_year t)))
            (min e (hydroEnd (hydro_year t))) with h | h
        · exact h
        · exfalso
          have htmax : max s (hydroStart (hydro_year t)) = t :=
            le_antisymm ha (le_trans hb h)
          have htmin : min e (hydroEnd (hydro_year t)) = t :=
            le_antisymm (le_trans h ha) hb
          rcases max_choice s (hydroStart (hydro_year t)) with hm | hm <;>
            rcases min_choice e (hydroEnd (hydro_year t)) with hn | hn
          · rw [hm] at htmax
            rw [hn] at htmin
            exact absurd (htmax.trans htmin.symm) (ne_of_lt hse)
          · rw [hm] at htmax
            rw [hn] at htmin
            refine hex1 ⟨htmax.symm, ?_⟩
            rw [htmax]
            exact htmin.symm
          · rw [hm] at htmax
            rw [hn] at htmin
            refine hex2 ⟨htmin.symm, ?_⟩
            rw [htmin]
            exact htmax.symm
          · rw [hm] at htmax
            rw [hn] at htmin
            have hlt := hydroStart_lt_hydroEnd (hydro_year t)
            rw [htmax, htmin] at hlt
            exact lt_irrefl t hlt
      exact ⟨⟨hydro_year t, max s (hydroStart (hydro_year t)),
          min e (hydroEnd (hydro_year t)),
          calculate_volume (data.map (fun x => (x.1.toSec, x.2)))
            (max s (hydroStart (hydro_year t))).toSec
            (min e (hydroEnd (hydro_year t))).toSec⟩,
        (mem_splitUnswapped_iff data s e _).mpr ⟨h1, h2, hab, rfl, rfl, rfl⟩, ha, hb⟩

/-- C1 (amended: the union statement needs two boundary exceptions — the code
skips a year whose intersection with the query interval is a single instant,
which happens exactly when the normalized `start` is the last instant
`31 Oct 23:59:59` of its hydrologic year, or the normalized `end` is the
first instant `01 Nov 00:00:00` of its hydrologic year; apart from those at
most two instants, the union of emitted closed intervals is exactly the
normalized query interval): the splitter emits one result per hydrologic year
whose intersection satisfies `interval_start < interval_end`, every emitted
interval stays inside its hydrologic year's calendar bounds and inside the
normalized query interval, and each valid instant of the query interval other
than the two exceptional endpoints is covered by an emitted interval. -/
theorem claim_C1_hydro_split_coverage (data : List (DateTime × ℚ)) (hdata : data ≠ [])
    (start_time end_time : DateTime) (hvs : start_time.Valid) (hve : end_time.Valid)
    (hne : start_time ≠ end_time) :
    (∀ r ∈ compute_hydrologic_year_volumes data start_time end_time,
       hydroStart r.year ≤ r.interval_start ∧ r.interval_end ≤ hydroEnd r.year ∧
       min start_time end_time ≤ r.interval_start ∧
       r.interval_end ≤ max start_time end_time) ∧
    (∀ n : ℤ,
       (∃ r ∈ compute_hydrologic_year_volumes data start_time end_time, r.year = n) ↔
       (hydro_year (min start_time end_time) ≤ n ∧
        n ≤ hydro_year (max start_time end_time) ∧
        max (min start_time end_time) (hydroStart n)
          < min (max start_time end_time) (hydroEnd n))) ∧
    (∀ t : DateTime, t.Valid →
       ((∃ r ∈ compute_hydrologic_year_volumes data start_time end_time,
           r.interval_start ≤ t ∧ t ≤ r.interval_end) ↔
        (min start_time end_time ≤ t ∧ t ≤ max start_time end_time ∧
         ¬(t = min start_time end_time ∧
           min start_time end_time
             = hydroEnd (hydro_year (min start_time end_time))) ∧
         ¬(t = max start_time end_time ∧
           max start_time end_time
             = hydroStart (hydro_year (max start_time end_time)))))) := by
  rw [compute_eq_splitUnswapped]
  have hvmin : (min start_time end_time).Valid := by
    rcases min_choice start_time end_time with h | h <;> rw [h] <;> assumption
  have hvmax : (max start_time end_time).Valid := by
    rcases max_choice start_time end_time with h | h <;> rw [h] <;> assumption
  exact splitUnswapped_union data _ _ hvmin hvmax (min_lt_max.mpr hne)

/-- C1 counterexample: with series spanning the year 2000 and the query
interval [2000-05-01, 2000-11-01], `start < end` already holds, so the
normalized query interval contains its endpoint 2000-11-01 00:00:00; yet no
emitted (interval_start, interval_end) pair contains that instant — hydrologic
year 2001's intersection degenerates to the single point 2000-11-01 and is
skipped. The union of the emitted intervals is therefore strictly smaller
than the normalized query interval. -/
theorem claim_C1_hydro_split_coverage_cex :
    ((⟨2000, 5, 1, 0, 0, 0⟩ : DateTime) ≤ ⟨2000, 11, 1, 0, 0, 0⟩) ∧
    (∀ r ∈ compute_hydrologic_year_volumes
        [((⟨2000, 1, 1, 0, 0, 0⟩ : DateTime), (1 : ℚ)), (⟨2000, 12, 31, 0, 0, 0⟩, 1)]
        ⟨2000, 5, 1, 0, 0, 0⟩ ⟨2000, 11, 1, 0, 0, 0⟩,
      ¬(r.interval_start ≤ ⟨2000, 11, 1, 0, 0, 0⟩ ∧
        (⟨2000, 11, 1, 0, 0, 0⟩ : DateTime) ≤ r.interval_end)) := by
  constructor
  · decide
  · decide

/-- Witness for C1 (amended) at a concrete series and a concrete interval
spanning two hydrologic years. -/
theorem claim_C1_hydro_split_coverage_witness :
    (∀ r ∈ compute_hydrologic_year_volumes
        [((⟨2000, 1, 1, 0, 0, 0⟩ : DateTime), (1 : ℚ))]
        ⟨2000, 3, 5, 0, 0, 0⟩ ⟨2001, 2, 1, 0, 0, 0⟩,
       hydroStart r.year ≤ r.interval_start ∧ r.interval_end ≤ hydroEnd r.year ∧
       min (⟨2000, 3, 5, 0, 0, 0⟩ : DateTime) ⟨2001, 2, 1, 0, 0, 0⟩ ≤ r.interval_start ∧
       r.interval_end ≤ max (⟨2000, 3, 5, 0, 0, 0⟩ : DateTime) ⟨2001, 2, 1, 0, 0, 0⟩) ∧
    (∀ n : ℤ,
       (∃ r ∈ compute_hydrologic_year_volumes
           [((⟨2000, 1, 1, 0, 0, 0⟩ : DateTime), (1 : ℚ))]
           ⟨2000, 3, 5, 0, 0, 0⟩ ⟨2001, 2, 1, 0, 0, 0⟩, r.year = n) ↔
       (hydro_year (min (⟨2000, 3, 5, 0, 0, 0⟩ : DateTime) ⟨2001, 2, 1, 0, 0, 0⟩) ≤ n ∧
        n ≤ hydro_year (max (⟨2000, 3, 5, 0, 0, 0⟩ : DateTime) ⟨2001, 2, 1, 0, 0, 0⟩) ∧
        max (min (⟨2000, 3, 5, 0, 0, 0⟩ : DateTime) ⟨2001, 2, 1, 0, 0, 0⟩) (hydroStart n)
          < min (max (⟨2000, 3, 5, 0, 0, 0⟩ : DateTime) ⟨2001, 2, 1, 0, 0, 0⟩) (hydroEnd n))) ∧
    (∀ t : DateTime, t.Valid →
       ((∃ r ∈ compute_hydrologic_year_volumes
           [((⟨2000, 1, 1, 0, 0, 0⟩ : DateTime), (1 : ℚ))]
           ⟨2000, 3, 5, 0, 0, 0⟩ ⟨2001, 2, 1, 0, 0, 0⟩,
           r.interval_start ≤ t ∧ t ≤ r.interval_end) ↔
        (min (⟨2000, 3, 5, 0, 0, 0⟩ : DateTime) ⟨2001, 2, 1, 0, 0, 0⟩ ≤ t ∧
         t ≤ max (⟨2000, 3, 5, 0, 0, 0⟩ : DateTime) ⟨2001, 2, 1, 0, 0, 0⟩ ∧
         ¬(t = min (⟨2000, 3, 5, 0, 0, 0⟩ : DateTime) ⟨2001, 2, 1, 0, 0, 0⟩ ∧
           min (⟨2000, 3, 5, 0, 0, 0⟩ : DateTime) ⟨2001, 2, 1, 0, 0, 0⟩
             = hydroEnd (hydro_year
                 (min (⟨2000, 3, 5, 0, 0, 0⟩ : DateTime) ⟨2001, 2, 1, 0, 0, 0⟩))) ∧
         ¬(t = max (⟨2000, 3, 5, 0, 0, 0⟩ : DateTime) ⟨2001, 2, 1, 0, 0, 0⟩ ∧
           max (⟨2000, 3, 5, 0, 0, 0⟩ : DateTime) ⟨2001, 2, 1, 0, 0, 0⟩
             = hydroStart (hydro_year
                 (max (⟨2000, 3, 5, 0, 0, 0⟩ : DateTime) ⟨2001, 2, 1, 0, 0, 0⟩)))))) :=
  claim_C1_hydro_split_coverage
    [((⟨2000, 1, 1, 0, 0, 0⟩ : DateTime), (1 : ℚ))] (by simp)
    ⟨2000, 3, 5, 0, 0, 0⟩ ⟨2001, 2, 1, 0, 0, 0⟩ (by decide) (by decide) (by decide)
